import Mathlib

/-!
Formal model of the THUNER tracking-and-matching engine.

The distributed sources of the repository consist of documentation,
tutorials (with transcripts of tracking runs) and workflow scripts; the
core Python package itself (the modules `thuner.match`, `thuner.track`,
`thuner.parallel`, `thuner.default`, ...) is not among them.  The
definitions below are therefore modelled from the specification of the
engine: the TINT/MINT greedy matcher, the per-object-type tracking state
with its monotone universal-id counter, the split/merge relabeler, the
hierarchy-level processing order, the flow-vector fallback, grouped-object
membership, and interval-parallel tracking with stitching.
-/

namespace Thuner

/- Frame-local object labels (positive integers in a labeled mask) and
universal ids (persistent identifiers, unique and never reused within an
object type) are both modelled as natural numbers. -/

/-- Association lookup (first match) in a list of key/value pairs. -/
def lookupA (l : Nat) : List (Nat × Nat) → Option Nat
  | [] => none
  | (k, v) :: xs => if l = k then some v else lookupA l xs

/-- Modelled from the spec (§4.2): choose the lowest-cost candidate; a tie
between two candidates of the same previous object is broken by the lowest
current-frame label, so the selection is deterministic. -/
def pickBest : List (Nat × ℚ) → Option (Nat × ℚ)
  | [] => none
  | x :: xs =>
    match pickBest xs with
    | none => some x
    | some b => some (if b.2 < x.2 ∨ (b.2 = x.2 ∧ b.1 < x.1) then b else x)

/-- Modelled from the spec (§4.2): the candidate current-frame objects of one
previous object are the pool members to which the cost function assigns a
finite cost; `none` encodes "outside the search margin / not acceptable". -/
def candidates (cost : Nat → Option ℚ) (pool : List Nat) : List (Nat × ℚ) :=
  pool.filterMap fun c => (cost c).map fun q => (c, q)

/-- The candidate claimed by one previous object from the remaining pool. -/
def bestCandidate (cost : Nat → Option ℚ) (pool : List Nat) : Option Nat :=
  (pickBest (candidates cost pool)).map Prod.fst

/-- Modelled from the spec (§4.2): greedy one-to-one assignment.  Previous
objects are processed in ascending id order; each claims its lowest-cost
candidate, which is then removed from the candidate pool for all later
previous objects.  Previous objects with no acceptable candidate get no
pair (they will be marked dead). -/
def greedyMatch (cost : Nat → Nat → Option ℚ) :
    List Nat → List Nat → List (Nat × Nat)
  | [], _ => []
  | p :: ps, pool =>
    match bestCandidate (cost p) pool with
    | none => greedyMatch cost ps pool
    | some c => (p, c) :: greedyMatch cost ps (pool.erase c)

/-- Modelled from the spec (§4.2): the matcher processes the previous-frame
objects in ascending id order (the canonical tie-break). -/
def matchPairs (cost : Nat → Nat → Option ℚ) (prevLabels curLabels : List Nat) :
    List (Nat × Nat) :=
  greedyMatch cost (List.insertionSort (· ≤ ·) prevLabels) curLabels

/-- The previous-frame label matched to a given current-frame label. -/
def matchedPrev (pairs : List (Nat × Nat)) (c : Nat) : Option Nat :=
  (pairs.find? fun pc => pc.2 == c).map Prod.fst

/-- Modelled from the spec (§3, §4.2): assign universal ids to the
current-frame labels.  A label claimed by a previous object inherits that
object's universal id; unclaimed labels are new and receive fresh ids from
the monotone counter, in label-list order.  Returns the assignment, the
freshly issued ids, and the updated counter. -/
def assignCur : List Nat → (Nat → Option Nat) → Nat →
    List (Nat × Nat) × List Nat × Nat
  | [], _, n => ([], [], n)
  | c :: cs, fm, n =>
    match fm c with
    | some u =>
      let r := assignCur cs fm n
      ((c, u) :: r.1, r.2.1, r.2.2)
    | none =>
      let r := assignCur cs fm (n + 1)
      ((c, n) :: r.1, n :: r.2.1, r.2.2)

/-- Modelled from the spec (§3): the per-object-type, per-timestep match
record: matched (previous label, current label) pairs, the current-frame
universal-id assignment, the freshly created ("new") universal ids and the
universal ids of previous objects with no acceptable candidate ("dead"). -/
structure MatchRecord where
  pairs : List (Nat × Nat)
  uidOf : List (Nat × Nat)
  newIds : List Nat
  deadIds : List Nat
  deriving Repr, DecidableEq

/-- The universal id inherited by a current label through the match pairs. -/
def fmOf (M : List (Nat × Nat)) (prevAssign : List (Nat × Nat)) :
    Nat → Option Nat :=
  fun c => (matchedPrev M c).bind fun l => lookupA l prevAssign

/-- Universal ids of the previous objects with no match: marked dead. -/
def deadOf (M : List (Nat × Nat)) (prevAssign : List (Nat × Nat)) : List Nat :=
  prevAssign.filterMap fun lu =>
    if M.any (fun pc => pc.1 == lu.1) then none else some lu.2

/-- Modelled from the spec (§4.2): one invocation of the Matcher.  Inputs are
the previous-frame universal-id assignment, the current-frame labels, the
cost function derived from the masks and flow vectors, and the universal-id
counter; output is the match record and the updated counter. -/
def buildRecord (cost : Nat → Nat → Option ℚ) (prevAssign : List (Nat × Nat))
    (curLabels : List Nat) (n : Nat) : MatchRecord × Nat :=
  let M := matchPairs cost (prevAssign.map Prod.fst) curLabels
  let r := assignCur curLabels (fmOf M prevAssign) n
  (⟨M, r.1, r.2.1, deadOf M prevAssign⟩, r.2.2)

/-- Modelled from the spec (§3): a mask is represented by the list of its
frame-local object labels; the geometric content of the mask enters the
model through the cost function supplied to the matcher. -/
structure Frame where
  labels : List Nat
  deriving Repr, DecidableEq

/-- Modelled from the spec (§3): the rolling state of the ObjectTracks class
for one object type: the previous mask, the monotone universal-id counter,
the current-frame universal-id assignment, the per-frame assignment
timeline, and the logs of every id ever assigned and every id marked dead. -/
structure RunState where
  prevFrame : Option Frame
  nextId : Nat
  current : List (Nat × Nat)
  timeline : List (List (Nat × Nat))
  assignedLog : List Nat
  deadLog : List Nat
  deriving Repr, DecidableEq

/-- Fresh ObjectTracks state: ids start at 1. -/
def initState : RunState := ⟨none, 1, [], [], [], []⟩

/-- The per-step cost function: derived from the previous and current masks
(on the first frame there is no previous mask and no candidate is
acceptable). -/
def stepCost (cost : Frame → Frame → Nat → Nat → Option ℚ) (s : RunState) (f : Frame) :
    Nat → Nat → Option ℚ :=
  match s.prevFrame with
  | none => fun _ _ => none
  | some pf => cost pf f

/-- Modelled from the spec (§2, §4.2): advance one object type by one
timestep: match the previous mask against the current one and update the
state with the resulting record. -/
def stepRun (cost : Frame → Frame → Nat → Nat → Option ℚ) (s : RunState) (f : Frame) :
    RunState :=
  let r := buildRecord (stepCost cost s f) s.current f.labels s.nextId
  ⟨some f, r.2, r.1.uidOf, s.timeline ++ [r.1.uidOf],
    s.assignedLog ++ r.1.newIds, s.deadLog ++ r.1.deadIds⟩

/-- Run a sequence of frames from a given state. -/
def runFrames (cost : Frame → Frame → Nat → Nat → Option ℚ) (s : RunState)
    (fs : List Frame) : RunState :=
  fs.foldl (stepRun cost) s

/-- Modelled from the spec (§2): single-interval tracking of one object type
over a time-ordered sequence of masks. -/
def runAll (cost : Frame → Frame → Nat → Nat → Option ℚ) (fs : List Frame) : RunState :=
  runFrames cost initState fs

/-! ### Basic lemmas about the association lookup -/

theorem lookupA_mem {l : Nat} {u : Nat} : ∀ {xs : List (Nat × Nat)},
    lookupA l xs = some u → (l, u) ∈ xs := by
  intro xs
  induction xs with
  | nil => intro h; simp [lookupA] at h
  | cons x xs ih =>
    obtain ⟨k, v⟩ := x
    intro h
    by_cases hk : l = k
    · subst hk
      have hv : v = u := by simpa [lookupA] using h
      cases hv
      exact List.mem_cons_self _ _
    · simp only [lookupA, if_neg hk] at h
      exact List.mem_cons_of_mem _ (ih h)

theorem lookupA_isSome_of_mem {l : Nat} : ∀ {xs : List (Nat × Nat)},
    l ∈ xs.map Prod.fst → (lookupA l xs).isSome := by
  intro xs
  induction xs with
  | nil => intro h; simp at h
  | cons x xs ih =>
    obtain ⟨k, v⟩ := x
    intro h
    by_cases hk : l = k
    · simp [lookupA, hk]
    · simp only [List.map_cons, List.mem_cons] at h
      rcases h with h | h
      · exact absurd h hk
      · simp only [lookupA, if_neg hk]
        exact ih h

theorem lookupA_eq_of_mem {l : Nat} {u : Nat} : ∀ {xs : List (Nat × Nat)},
    (xs.map Prod.fst).Nodup → (l, u) ∈ xs → lookupA l xs = some u := by
  intro xs
  induction xs with
  | nil => intro _ h; simp at h
  | cons x xs ih =>
    obtain ⟨k, v⟩ := x
    intro hnd hm
    simp only [List.map_cons, List.nodup_cons] at hnd
    rcases List.mem_cons.mp hm with he | ht
    · cases he
      simp [lookupA]
    · have hne : l ≠ k := by
        intro heq
        subst heq
        exact hnd.1 (List.mem_map_of_mem Prod.fst ht)
      simp only [lookupA, if_neg hne]
      exact ih hnd.2 ht

theorem lookupA_inj {l1 l2 : Nat} {u : Nat} : ∀ {xs : List (Nat × Nat)},
    (xs.map Prod.snd).Nodup → lookupA l1 xs = some u → lookupA l2 xs = some u →
    l1 = l2 := by
  intro xs
  induction xs with
  | nil => intro _ h; simp [lookupA] at h
  | cons x xs ih =>
    obtain ⟨k, v⟩ := x
    intro hnd h1 h2
    simp only [List.map_cons, List.nodup_cons] at hnd
    by_cases hk1 : l1 = k <;> by_cases hk2 : l2 = k
    · rw [hk1, hk2]
    · subst hk1
      have hv : v = u := by simpa [lookupA] using h1
      simp only [lookupA, if_neg hk2] at h2
      refine absurd ?_ hnd.1
      rw [hv]
      exact List.mem_map_of_mem Prod.snd (lookupA_mem h2)
    · subst hk2
      have hv : v = u := by simpa [lookupA] using h2
      simp only [lookupA, if_neg hk1] at h1
      refine absurd ?_ hnd.1
      rw [hv]
      exact List.mem_map_of_mem Prod.snd (lookupA_mem h1)
    · simp only [lookupA, if_neg hk1] at h1
      simp only [lookupA, if_neg hk2] at h2
      exact ih hnd.2 h1 h2

theorem lookupA_map_snd (ρ : Nat → Nat) (l : Nat) : ∀ (xs : List (Nat × Nat)),
    lookupA l (xs.map fun lu => (lu.1, ρ lu.2)) = (lookupA l xs).map ρ := by
  intro xs
  induction xs with
  | nil => simp [lookupA]
  | cons x xs ih =>
    obtain ⟨k, v⟩ := x
    by_cases hk : l = k
    · simp [lookupA, hk]
    · simp only [List.map_cons, lookupA, if_neg hk]
      exact ih

/-- In a list with distinct keys, a key determines its value. -/
theorem mem_keys_nodup_eq {l : Nat} {u1 u2 : Nat} {xs : List (Nat × Nat)}
    (hnd : (xs.map Prod.fst).Nodup) (h1 : (l, u1) ∈ xs) (h2 : (l, u2) ∈ xs) :
    u1 = u2 := by
  have e1 := lookupA_eq_of_mem hnd h1
  have e2 := lookupA_eq_of_mem hnd h2
  rw [e1] at e2
  exact Option.some.inj e2

/-! ### Lemmas about candidate selection and the greedy assignment -/

theorem pickBest_mem {x : Nat × ℚ} : ∀ {xs : List (Nat × ℚ)},
    pickBest xs = some x → x ∈ xs := by
  intro xs
  induction xs with
  | nil => intro h; simp [pickBest] at h
  | cons y ys ih =>
    intro h
    simp only [pickBest] at h
    cases hp : pickBest ys with
    | none =>
      rw [hp] at h
      simp only [Option.some.injEq] at h
      simp [h]
    | some b =>
      rw [hp] at h
      simp only [Option.some.injEq] at h
      by_cases hc : b.2 < y.2 ∨ (b.2 = y.2 ∧ b.1 < y.1)
      · rw [if_pos hc] at h
        exact List.mem_cons_of_mem _ (ih (h ▸ hp))
      · rw [if_neg hc] at h
        simp [← h]

theorem candidates_mem {cost : Nat → Option ℚ} {pool : List Nat} {x : Nat × ℚ}
    (h : x ∈ candidates cost pool) : x.1 ∈ pool ∧ cost x.1 = some x.2 := by
  simp only [candidates, List.mem_filterMap] at h
  obtain ⟨a, ha, he⟩ := h
  cases hc : cost a with
  | none => rw [hc] at he; simp at he
  | some q =>
    rw [hc] at he
    simp only [Option.map_some', Option.some.injEq] at he
    subst he
    exact ⟨ha, hc⟩

theorem bestCandidate_mem {cost : Nat → Option ℚ} {pool : List Nat} {c : Nat}
    (h : bestCandidate cost pool = some c) : c ∈ pool := by
  simp only [bestCandidate, Option.map_eq_some'] at h
  obtain ⟨x, hx, he⟩ := h
  exact he ▸ (candidates_mem (pickBest_mem hx)).1

theorem greedyMatch_mem {cost : Nat → Nat → Option ℚ} {p c : Nat} :
    ∀ {ps pool : List Nat}, (p, c) ∈ greedyMatch cost ps pool →
    p ∈ ps ∧ c ∈ pool := by
  intro ps
  induction ps with
  | nil => intro pool h; simp [greedyMatch] at h
  | cons q qs ih =>
    intro pool h
    simp only [greedyMatch] at h
    cases hb : bestCandidate (cost q) pool with
    | none =>
      rw [hb] at h
      obtain ⟨h1, h2⟩ := ih h
      exact ⟨List.mem_cons_of_mem _ h1, h2⟩
    | some c' =>
      rw [hb] at h
      rcases List.mem_cons.mp h with h | h
      · obtain ⟨h1, h2⟩ := Prod.mk.injEq .. ▸ h
        cases h
        exact ⟨List.mem_cons_self _ _, bestCandidate_mem hb⟩
      · obtain ⟨h1, h2⟩ := ih h
        exact ⟨List.mem_cons_of_mem _ h1, List.mem_of_mem_erase h2⟩

theorem greedyMatch_nil_pool {cost : Nat → Nat → Option ℚ} :
    ∀ (ps : List Nat), greedyMatch cost ps [] = [] := by
  intro ps
  induction ps with
  | nil => rfl
  | cons q qs ih =>
    simp only [greedyMatch, bestCandidate, candidates, List.filterMap_nil, pickBest,
      Option.map_none']
    exact ih

theorem greedyMatch_snd_nodup {cost : Nat → Nat → Option ℚ} :
    ∀ {ps pool : List Nat}, pool.Nodup →
    ((greedyMatch cost ps pool).map Prod.snd).Nodup := by
  intro ps
  induction ps with
  | nil => intro pool _; simp [greedyMatch]
  | cons q qs ih =>
    intro pool hnd
    simp only [greedyMatch]
    cases hb : bestCandidate (cost q) pool with
    | none => exact ih hnd
    | some c =>
      simp only [List.map_cons, List.nodup_cons]
      refine ⟨?_, ih (hnd.erase c)⟩
      intro hmem
      obtain ⟨⟨p', c'⟩, hpc, he⟩ := List.mem_map.mp hmem
      cases he
      exact hnd.not_mem_erase (greedyMatch_mem hpc).2

theorem greedyMatch_fst_sublist {cost : Nat → Nat → Option ℚ} :
    ∀ (ps pool : List Nat), ((greedyMatch cost ps pool).map Prod.fst).Sublist ps := by
  intro ps
  induction ps with
  | nil => intro pool; simp [greedyMatch]
  | cons q qs ih =>
    intro pool
    simp only [greedyMatch]
    cases hb : bestCandidate (cost q) pool with
    | none => exact (ih pool).cons q
    | some c =>
      simp only [List.map_cons]
      exact (ih (pool.erase c)).cons₂ q

/-! ### Lemmas about the match pairs and the id assignment -/

theorem matchedPrev_cons (a b c : Nat) (xs : List (Nat × Nat)) :
    matchedPrev ((a, b) :: xs) c = if b = c then some a else matchedPrev xs c := by
  by_cases hb : b = c
  · rw [if_pos hb]
    simp only [matchedPrev, List.find?]
    have hbeq : (b == c) = true := by simpa using hb
    simp [hbeq]
  · rw [if_neg hb]
    simp only [matchedPrev, List.find?]
    have hbeq : (b == c) = false := by simpa using hb
    simp [hbeq]

theorem matchedPrev_mem {c l : Nat} : ∀ {M : List (Nat × Nat)},
    matchedPrev M c = some l → (l, c) ∈ M := by
  intro M
  induction M with
  | nil => intro h; simp [matchedPrev] at h
  | cons x xs ih =>
    obtain ⟨a, b⟩ := x
    intro h
    rw [matchedPrev_cons] at h
    by_cases hb : b = c
    · rw [if_pos hb] at h
      have hal : a = l := by simpa using h
      subst hb
      subst hal
      exact List.mem_cons_self _ _
    · rw [if_neg hb] at h
      exact List.mem_cons_of_mem _ (ih h)

theorem matchedPrev_inj {M : List (Nat × Nat)} {c1 c2 l : Nat}
    (hnd : (M.map Prod.fst).Nodup)
    (h1 : matchedPrev M c1 = some l) (h2 : matchedPrev M c2 = some l) : c1 = c2 :=
  mem_keys_nodup_eq hnd (matchedPrev_mem h1) (matchedPrev_mem h2)

theorem matchedPrev_eq_of_mem {c l : Nat} : ∀ {M : List (Nat × Nat)},
    (M.map Prod.snd).Nodup → (l, c) ∈ M → matchedPrev M c = some l := by
  intro M
  induction M with
  | nil => intro _ h; simp at h
  | cons x xs ih =>
    obtain ⟨a, b⟩ := x
    intro hnd hm
    simp only [List.map_cons, List.nodup_cons] at hnd
    rw [matchedPrev_cons]
    rcases List.mem_cons.mp hm with he | ht
    · cases he
      rw [if_pos rfl]
    · have hbc : b ≠ c := by
        intro heq
        subst heq
        exact hnd.1 (List.mem_map_of_mem Prod.snd ht)
      rw [if_neg hbc]
      exact ih hnd.2 ht

theorem assignCur_spec (fm : Nat → Option Nat) : ∀ (ls : List Nat) (n : Nat),
    ((assignCur ls fm n).1.map Prod.fst = ls) ∧
    (n ≤ (assignCur ls fm n).2.2) ∧
    ((assignCur ls fm n).2.1 = List.range' n ((assignCur ls fm n).2.2 - n)) ∧
    (∀ c u, (c, u) ∈ (assignCur ls fm n).1 →
      fm c = some u ∨ (fm c = none ∧ n ≤ u ∧ u < (assignCur ls fm n).2.2)) := by
  intro ls
  induction ls with
  | nil => intro n; simp [assignCur]
  | cons c cs ih =>
    intro n
    cases hc : fm c with
    | some u =>
      obtain ⟨i1, i2, i3, i4⟩ := ih n
      refine ⟨?_, ?_, ?_, ?_⟩
      · simp only [assignCur, hc, List.map_cons, i1]
      · simpa only [assignCur, hc] using i2
      · simpa only [assignCur, hc] using i3
      · simp only [assignCur, hc]
        intro c' u' hm
        rcases List.mem_cons.mp hm with he | ht
        · cases he
          exact Or.inl hc
        · exact i4 c' u' ht
    | none =>
      obtain ⟨i1, i2, i3, i4⟩ := ih (n + 1)
      refine ⟨?_, ?_, ?_, ?_⟩
      · simp only [assignCur, hc, List.map_cons, i1]
      · simp only [assignCur, hc]
        omega
      · simp only [assignCur, hc]
        rw [i3]
        have he : (assignCur cs fm (n + 1)).2.2 - n = ((assignCur cs fm (n + 1)).2.2 - (n + 1)) + 1 := by
          omega
        rw [he, List.range'_succ]
      · simp only [assignCur, hc]
        intro c' u' hm
        rcases List.mem_cons.mp hm with he | ht
        · cases he
          exact Or.inr ⟨hc, le_refl n, by omega⟩
        · rcases i4 c' u' ht with h | ⟨h1, h2, h3⟩
          · exact Or.inl h
          · exact Or.inr ⟨h1, by omega, h3⟩

theorem assignCur_snd_nodup (fm : Nat → Option Nat) : ∀ (ls : List Nat) (n : Nat),
    ls.Nodup →
    (∀ c1 c2 u, fm c1 = some u → fm c2 = some u → c1 = c2) →
    (∀ c u, fm c = some u → u < n) →
    ((assignCur ls fm n).1.map Prod.snd).Nodup := by
  intro ls
  induction ls with
  | nil => intro n _ _ _; simp [assignCur]
  | cons c cs ih =>
    intro n hnd hinj hbd
    simp only [List.nodup_cons] at hnd
    cases hc : fm c with
    | some u =>
      simp only [assignCur, hc, List.map_cons, List.nodup_cons]
      constructor
      · intro hmem
        obtain ⟨⟨c', u'⟩, hm, he⟩ := List.mem_map.mp hmem
        simp only at he
        rw [he] at hm
        rcases (assignCur_spec fm cs n).2.2.2 c' u hm with h | ⟨h1, h2, _⟩
        · exact hnd.1 ((hinj c c' u hc h).symm ▸ ((assignCur_spec fm cs n).1 ▸
            List.mem_map_of_mem Prod.fst hm))
        · exact absurd (hbd c u hc) (by omega)
      · exact ih n hnd.2 hinj hbd
    | none =>
      simp only [assignCur, hc, List.map_cons, List.nodup_cons]
      constructor
      · intro hmem
        obtain ⟨⟨c', u'⟩, hm, he⟩ := List.mem_map.mp hmem
        simp only at he
        rw [he] at hm
        rcases (assignCur_spec fm cs (n + 1)).2.2.2 c' n hm with h | ⟨_, h2, _⟩
        · exact absurd (hbd c' n h) (by omega)
        · omega
      · refine ih (n + 1) hnd.2 hinj ?_
        intro c' u' h
        exact Nat.lt_succ_of_lt (hbd c' u' h)

theorem assignCur_snd_lt (fm : Nat → Option Nat) (ls : List Nat) (n : Nat)
    (hbd : ∀ c u, fm c = some u → u < n) :
    ∀ u ∈ (assignCur ls fm n).1.map Prod.snd, u < (assignCur ls fm n).2.2 := by
  intro u hmem
  obtain ⟨⟨c, u'⟩, hm, he⟩ := List.mem_map.mp hmem
  simp only at he
  rw [he] at hm
  rcases (assignCur_spec fm ls n).2.2.2 c u hm with h | ⟨_, _, h3⟩
  · exact lt_of_lt_of_le (hbd c u h) (assignCur_spec fm ls n).2.1
  · exact h3

theorem assignCur_all_none (fm : Nat → Option Nat) : ∀ (ls : List Nat) (n : Nat),
    (∀ c, fm c = none) →
    (assignCur ls fm n).1.map Prod.snd = (assignCur ls fm n).2.1 := by
  intro ls
  induction ls with
  | nil => intro n _; simp [assignCur]
  | cons c cs ih =>
    intro n hall
    simp only [assignCur, hall c, List.map_cons]
    rw [ih (n + 1) hall]

theorem matchPairs_fst_nodup {cost : Nat → Nat → Option ℚ}
    {prevLabels curLabels : List Nat} (h : prevLabels.Nodup) :
    ((matchPairs cost prevLabels curLabels).map Prod.fst).Nodup := by
  have hperm : (List.insertionSort (· ≤ ·) prevLabels).Perm prevLabels :=
    List.perm_insertionSort _ _
  exact List.Nodup.sublist (greedyMatch_fst_sublist _ _) (hperm.nodup_iff.mpr h)

theorem fmOf_inj {M : List (Nat × Nat)} {prevAssign : List (Nat × Nat)}
    (hM : (M.map Prod.fst).Nodup) (hsnd : (prevAssign.map Prod.snd).Nodup) :
    ∀ c1 c2 u, fmOf M prevAssign c1 = some u → fmOf M prevAssign c2 = some u →
    c1 = c2 := by
  intro c1 c2 u h1 h2
  simp only [fmOf, Option.bind_eq_some] at h1 h2
  obtain ⟨l1, hm1, hl1⟩ := h1
  obtain ⟨l2, hm2, hl2⟩ := h2
  cases lookupA_inj hsnd hl1 hl2
  exact matchedPrev_inj hM hm1 hm2

theorem fmOf_bound {M : List (Nat × Nat)} {prevAssign : List (Nat × Nat)} {n : Nat}
    (hlt : ∀ u ∈ prevAssign.map Prod.snd, u < n) :
    ∀ c u, fmOf M prevAssign c = some u → u < n := by
  intro c u h
  simp only [fmOf, Option.bind_eq_some] at h
  obtain ⟨l, _, hl⟩ := h
  exact hlt u (List.mem_map_of_mem Prod.snd (lookupA_mem hl))

/-! ### The Matcher entry point on optional masks -/

/-- Modelled from the spec (§4.2, §7): a missing mask (a `DetectionGap`) is
treated as a mask containing no objects. -/
def maskLabels : Option Frame → List Nat
  | none => []
  | some f => f.labels

/-- Modelled from the spec (§4.2): the Matcher on optional masks; a missing
current mask is recovered locally as "no current objects". -/
def matchMasks (cost : Nat → Nat → Option ℚ) (prevAssign : List (Nat × Nat))
    (curMask : Option Frame) (n : Nat) : MatchRecord × Nat :=
  buildRecord cost prevAssign (maskLabels curMask) n

theorem deadOf_nil (prevAssign : List (Nat × Nat)) :
    deadOf [] prevAssign = prevAssign.map Prod.snd := by
  induction prevAssign with
  | nil => rfl
  | cons x xs ih =>
    simp only [deadOf, List.filterMap_cons, List.any_nil, if_neg Bool.false_ne_true,
      List.map_cons] at ih ⊢
    rw [ih]

/-- A small concrete cost function used by the witnesses below: previous
object 1 prefers current object 5; previous object 2 accepts 5 (at the same
cost, a tie) or 6 (at a higher cost). -/
def exCost : Nat → Nat → Option ℚ := fun p c =>
  if p = 1 ∧ c = 5 then some 1
  else if p = 2 ∧ c = 5 then some 1
  else if p = 2 ∧ c = 6 then some 2
  else none

/-! ### Claim C1: the match record is one-to-one -/

/-- **C1.**  In any single `MatchRecord` produced by the Matcher for one
object type at one timestep, the match mapping is one-to-one: no
current-frame label is the match target of more than one previous-frame
label, each current-frame label maps to at most one universal id, and each
universal id maps to at most one current-frame label. -/
theorem matchRecord_one_to_one (cost : Nat → Nat → Option ℚ)
    (prevAssign : List (Nat × Nat)) (curLabels : List Nat) (n : Nat)
    (hkeys : (prevAssign.map Prod.fst).Nodup)
    (huids : (prevAssign.map Prod.snd).Nodup)
    (hlt : ∀ u ∈ prevAssign.map Prod.snd, u < n)
    (hcur : curLabels.Nodup) :
    ((buildRecord cost prevAssign curLabels n).1.pairs.map Prod.snd).Nodup ∧
    ((buildRecord cost prevAssign curLabels n).1.uidOf.map Prod.fst).Nodup ∧
    ((buildRecord cost prevAssign curLabels n).1.uidOf.map Prod.snd).Nodup := by
  refine ⟨?_, ?_, ?_⟩
  · simp only [buildRecord, matchPairs]
    exact greedyMatch_snd_nodup hcur
  · simp only [buildRecord]
    rw [(assignCur_spec _ _ _).1]
    exact hcur
  · simp only [buildRecord]
    exact assignCur_snd_nodup _ curLabels n hcur
      (fmOf_inj (matchPairs_fst_nodup hkeys) huids) (fmOf_bound hlt)

/-- Witness for C1 at a concrete input. -/
theorem matchRecord_one_to_one_witness :
    ((buildRecord exCost [(1, 10), (2, 20)] [5, 6] 30).1.pairs.map Prod.snd).Nodup ∧
    ((buildRecord exCost [(1, 10), (2, 20)] [5, 6] 30).1.uidOf.map Prod.fst).Nodup ∧
    ((buildRecord exCost [(1, 10), (2, 20)] [5, 6] 30).1.uidOf.map Prod.snd).Nodup :=
  matchRecord_one_to_one exCost [(1, 10), (2, 20)] [5, 6] 30
    (by decide) (by decide) (by decide) (by decide)

/-! ### Claim C2: determinism and the ascending-id tie-break -/

/-- **C2.**  The Matcher is deterministic: matching equal inputs yields
identical results, and when several previous objects all claim the same
lowest-cost current-frame candidate (in particular when two previous
objects tie in cost for it), the candidate is assigned to the previous
object with the lowest id, and to no other. -/
theorem matcher_deterministic_tie_break (cost : Nat → Nat → Option ℚ)
    (ps pool : List Nat) (c : Nat)
    (hne : ps ≠ [])
    (hsorted : List.Chain' (· < ·) ps)
    (hpool : pool.Nodup)
    (hall : ∀ p ∈ ps, bestCandidate (cost p) pool = some c) :
    (∀ cost2 ps2 pool2, cost2 = cost → ps2 = ps → pool2 = pool →
      greedyMatch cost2 ps2 pool2 = greedyMatch cost ps pool) ∧
    (ps.head hne, c) ∈ greedyMatch cost ps pool ∧
    (∀ p ∈ ps, ps.head hne ≤ p) ∧
    (∀ p ∈ ps, p ≠ ps.head hne → (p, c) ∉ greedyMatch cost ps pool) := by
  obtain ⟨p0, ps', rfl⟩ : ∃ p0 ps', ps = p0 :: ps' := by
    cases ps with
    | nil => exact absurd rfl hne
    | cons a l => exact ⟨a, l, rfl⟩
  have hpair : List.Pairwise (· < ·) (p0 :: ps') := List.chain'_iff_pairwise.mp hsorted
  have hlt : ∀ q ∈ ps', p0 < q := (List.pairwise_cons.mp hpair).1
  refine ⟨?_, ?_, ?_, ?_⟩
  · intro c2 p2 q2 h1 h2 h3
    rw [h1, h2, h3]
  · simp only [greedyMatch, hall p0 (List.mem_cons_self _ _), List.head_cons]
    exact List.mem_cons_self _ _
  · intro p hp
    simp only [List.head_cons]
    rcases List.mem_cons.mp hp with rfl | hp
    · exact le_refl p
    · exact le_of_lt (hlt p hp)
  · intro p hp hne2 hmem
    simp only [List.head_cons] at hne2
    simp only [greedyMatch, hall p0 (List.mem_cons_self _ _)] at hmem
    rcases List.mem_cons.mp hmem with he | hmem
    · exact hne2 (congrArg Prod.fst he)
    · exact hpool.not_mem_erase (greedyMatch_mem hmem).2

/-- Witness for C2 at a concrete input: previous objects 1 and 2 tie at
cost 1 for current object 5, and object 1 (the lowest id) claims it. -/
theorem matcher_deterministic_tie_break_witness :
    (∀ cost2 ps2 pool2, cost2 = exCost → ps2 = [1, 2] → pool2 = [5, 6] →
      greedyMatch cost2 ps2 pool2 = greedyMatch exCost [1, 2] [5, 6]) ∧
    (([1, 2] : List Nat).head (by decide), 5) ∈ greedyMatch exCost [1, 2] [5, 6] ∧
    (∀ p ∈ ([1, 2] : List Nat), ([1, 2] : List Nat).head (by decide) ≤ p) ∧
    (∀ p ∈ ([1, 2] : List Nat), p ≠ ([1, 2] : List Nat).head (by decide) →
      (p, 5) ∉ greedyMatch exCost [1, 2] [5, 6]) :=
  matcher_deterministic_tie_break exCost [1, 2] [5, 6] 5
    (by decide) (by simp) (by decide) (by decide)

/-! ### Claim C3: empty and missing mask edge cases -/

/-- **C3.**  If the current mask is absent or contains no objects, the
returned match record marks every previous id dead, pairs nothing, creates
no new ids and leaves the id counter unchanged (tracking continues — the
Matcher is a total function).  If the previous mask is absent or empty,
every current label is marked new: the assignment covers exactly the
current labels and all assigned ids are fresh ones. -/
theorem matcher_empty_mask_edge_cases (cost : Nat → Nat → Option ℚ)
    (prevAssign : List (Nat × Nat)) (curMask : Option Frame) (n : Nat) :
    (maskLabels curMask = [] →
      (matchMasks cost prevAssign curMask n).1.pairs = [] ∧
      (matchMasks cost prevAssign curMask n).1.deadIds = prevAssign.map Prod.snd ∧
      (matchMasks cost prevAssign curMask n).1.newIds = [] ∧
      (matchMasks cost prevAssign curMask n).1.uidOf = [] ∧
      (matchMasks cost prevAssign curMask n).2 = n) ∧
    (prevAssign = [] →
      (matchMasks cost prevAssign curMask n).1.pairs = [] ∧
      (matchMasks cost prevAssign curMask n).1.deadIds = [] ∧
      (matchMasks cost prevAssign curMask n).1.uidOf.map Prod.snd =
        (matchMasks cost prevAssign curMask n).1.newIds ∧
      (matchMasks cost prevAssign curMask n).1.uidOf.map Prod.fst =
        maskLabels curMask) := by
  constructor
  · intro he
    have hM : matchPairs cost (prevAssign.map Prod.fst) ([] : List Nat) = [] := by
      rw [matchPairs, greedyMatch_nil_pool]
    refine ⟨?_, ?_, ?_, ?_, ?_⟩
    · simp only [matchMasks, buildRecord, he, hM]
    · simp only [matchMasks, buildRecord, he, hM]
      exact deadOf_nil prevAssign
    · simp only [matchMasks, buildRecord, he, hM, assignCur]
    · simp only [matchMasks, buildRecord, he, hM, assignCur]
    · simp only [matchMasks, buildRecord, he, hM, assignCur]
  · intro hp
    subst hp
    have hfm : ∀ x, fmOf (matchPairs cost (([] : List (Nat × Nat)).map Prod.fst)
        (maskLabels curMask)) [] x = none := fun _ => rfl
    refine ⟨rfl, rfl, ?_, ?_⟩
    · simp only [matchMasks, buildRecord]
      exact assignCur_all_none _ _ _ hfm
    · simp only [matchMasks, buildRecord]
      exact (assignCur_spec _ _ _).1

/-- Witness for C3 at concrete inputs: a missing current mask kills both
previous ids; an empty previous state makes both current labels new. -/
theorem matcher_empty_mask_edge_cases_witness :
    ((matchMasks exCost [(1, 10), (2, 20)] none 30).1.deadIds = [10, 20] ∧
      (matchMasks exCost [(1, 10), (2, 20)] none 30).1.newIds = []) ∧
    ((matchMasks exCost [] (some ⟨[5, 6]⟩) 30).1.uidOf.map Prod.fst = [5, 6] ∧
      (matchMasks exCost [] (some ⟨[5, 6]⟩) 30).1.deadIds = []) := by
  have h1 := (matcher_empty_mask_edge_cases exCost [(1, 10), (2, 20)] none 30).1 rfl
  have h2 := (matcher_empty_mask_edge_cases exCost [] (some ⟨[5, 6]⟩) 30).2 rfl
  exact ⟨⟨h1.2.1, h1.2.2.1⟩, ⟨h2.2.2.2, h2.2.1⟩⟩

/-! ### Claim C4: universal ids are strictly increasing and never reused -/

theorem buildRecord_pairs (cost : Nat → Nat → Option ℚ) (prev : List (Nat × Nat))
    (cur : List Nat) (n : Nat) :
    (buildRecord cost prev cur n).1.pairs = matchPairs cost (prev.map Prod.fst) cur := rfl

theorem buildRecord_uidOf (cost : Nat → Nat → Option ℚ) (prev : List (Nat × Nat))
    (cur : List Nat) (n : Nat) :
    (buildRecord cost prev cur n).1.uidOf =
      (assignCur cur (fmOf (matchPairs cost (prev.map Prod.fst) cur) prev) n).1 := rfl

theorem buildRecord_newIds (cost : Nat → Nat → Option ℚ) (prev : List (Nat × Nat))
    (cur : List Nat) (n : Nat) :
    (buildRecord cost prev cur n).1.newIds =
      (assignCur cur (fmOf (matchPairs cost (prev.map Prod.fst) cur) prev) n).2.1 := rfl

theorem buildRecord_deadIds (cost : Nat → Nat → Option ℚ) (prev : List (Nat × Nat))
    (cur : List Nat) (n : Nat) :
    (buildRecord cost prev cur n).1.deadIds =
      deadOf (matchPairs cost (prev.map Prod.fst) cur) prev := rfl

theorem buildRecord_counter (cost : Nat → Nat → Option ℚ) (prev : List (Nat × Nat))
    (cur : List Nat) (n : Nat) :
    (buildRecord cost prev cur n).2 =
      (assignCur cur (fmOf (matchPairs cost (prev.map Prod.fst) cur) prev) n).2.2 := rfl

theorem stepRun_prevFrame (cost : Frame → Frame → Nat → Nat → Option ℚ)
    (s : RunState) (f : Frame) : (stepRun cost s f).prevFrame = some f := rfl

theorem stepRun_nextId (cost : Frame → Frame → Nat → Nat → Option ℚ)
    (s : RunState) (f : Frame) :
    (stepRun cost s f).nextId =
      (buildRecord (stepCost cost s f) s.current f.labels s.nextId).2 := rfl

theorem stepRun_current (cost : Frame → Frame → Nat → Nat → Option ℚ)
    (s : RunState) (f : Frame) :
    (stepRun cost s f).current =
      (buildRecord (stepCost cost s f) s.current f.labels s.nextId).1.uidOf := rfl

theorem stepRun_timeline (cost : Frame → Frame → Nat → Nat → Option ℚ)
    (s : RunState) (f : Frame) :
    (stepRun cost s f).timeline = s.timeline ++
      [(buildRecord (stepCost cost s f) s.current f.labels s.nextId).1.uidOf] := rfl

theorem stepRun_assignedLog (cost : Frame → Frame → Nat → Nat → Option ℚ)
    (s : RunState) (f : Frame) :
    (stepRun cost s f).assignedLog = s.assignedLog ++
      (buildRecord (stepCost cost s f) s.current f.labels s.nextId).1.newIds := rfl

theorem stepRun_deadLog (cost : Frame → Frame → Nat → Nat → Option ℚ)
    (s : RunState) (f : Frame) :
    (stepRun cost s f).deadLog = s.deadLog ++
      (buildRecord (stepCost cost s f) s.current f.labels s.nextId).1.deadIds := rfl

theorem deadOf_subset {M : List (Nat × Nat)} {prev : List (Nat × Nat)} :
    ∀ u ∈ deadOf M prev, u ∈ prev.map Prod.snd := by
  intro u h
  simp only [deadOf, List.mem_filterMap] at h
  obtain ⟨lu, hm, he⟩ := h
  by_cases hc : (M.any fun pc => pc.1 == lu.1) = true
  · rw [if_pos hc] at he
    simp at he
  · rw [if_neg hc] at he
    have : lu.2 = u := Option.some.inj he
    rw [← this]
    exact List.mem_map_of_mem Prod.snd hm

theorem chain'_lt_range' : ∀ (n s : Nat), List.Chain' (· < ·) (List.range' s n) := by
  intro n
  induction n with
  | zero => intro s; simp
  | succ k ih =>
    intro s
    rw [List.range'_succ, List.chain'_cons']
    refine ⟨?_, ih (s + 1)⟩
    intro y hy
    rw [List.head?_range'] at hy
    by_cases hk : k = 0
    · rw [if_pos hk] at hy
      simp at hy
    · rw [if_neg hk] at hy
      have : y = s + 1 := Option.some.inj hy.symm
      omega

theorem mem_range'_bounds {m s n : Nat} (h : m ∈ List.range' s n) :
    s ≤ m ∧ m < s + n := by
  rw [List.mem_range'] at h
  obtain ⟨i, hi, he⟩ := h
  omega

/-- Internal well-formedness of a tracking state: every id that has ever
appeared is below the monotone counter, and the log of assigned ids is
strictly increasing. -/
def StateOk (s : RunState) : Prop :=
  (∀ u ∈ s.current.map Prod.snd, u < s.nextId) ∧
  (∀ u ∈ s.assignedLog, u < s.nextId) ∧
  (∀ u ∈ s.deadLog, u < s.nextId) ∧
  List.Chain' (· < ·) s.assignedLog

theorem initState_ok : StateOk initState := by
  refine ⟨?_, ?_, ?_, ?_⟩ <;> simp [initState]

theorem stepRun_ok {cost : Frame → Frame → Nat → Nat → Option ℚ} {s : RunState}
    (f : Frame) (h : StateOk s) :
    StateOk (stepRun cost s f) ∧
    s.nextId ≤ (stepRun cost s f).nextId ∧
    (stepRun cost s f).assignedLog = s.assignedLog ++
      List.range' s.nextId ((stepRun cost s f).nextId - s.nextId) := by
  obtain ⟨hcur, hlog, hdead, hchain⟩ := h
  set pc := stepCost cost s f with hpc
  set M := matchPairs pc (s.current.map Prod.fst) f.labels with hM
  have hspec := assignCur_spec (fmOf M s.current) f.labels s.nextId
  have hbd : ∀ c u, fmOf M s.current c = some u → u < s.nextId := fmOf_bound hcur
  have hle : s.nextId ≤ (stepRun cost s f).nextId := by
    rw [stepRun_nextId, buildRecord_counter]
    exact hspec.2.1
  have hlogeq : (stepRun cost s f).assignedLog = s.assignedLog ++
      List.range' s.nextId ((stepRun cost s f).nextId - s.nextId) := by
    rw [stepRun_assignedLog, buildRecord_newIds, stepRun_nextId, buildRecord_counter]
    rw [hspec.2.2.1]
  refine ⟨⟨?_, ?_, ?_, ?_⟩, hle, hlogeq⟩
  · intro u hu
    rw [stepRun_current, buildRecord_uidOf] at hu
    rw [stepRun_nextId, buildRecord_counter]
    exact assignCur_snd_lt _ _ _ hbd u hu
  · intro u hu
    rw [hlogeq] at hu
    rcases List.mem_append.mp hu with hu | hu
    · exact lt_of_lt_of_le (hlog u hu) hle
    · have := mem_range'_bounds hu
      omega
  · intro u hu
    rw [stepRun_deadLog, buildRecord_deadIds] at hu
    rw [stepRun_nextId, buildRecord_counter]
    rcases List.mem_append.mp hu with hu | hu
    · exact lt_of_lt_of_le (hdead u hu) hspec.2.1
    · exact lt_of_lt_of_le (hcur u (deadOf_subset u hu)) hspec.2.1
  · rw [hlogeq]
    refine List.Chain'.append hchain (chain'_lt_range' _ _) ?_
    intro x hx y hy
    have hxm : x ∈ s.assignedLog := List.mem_of_mem_getLast? hx
    have hxlt := hlog x hxm
    by_cases hz : (stepRun cost s f).nextId - s.nextId = 0
    · rw [hz] at hy
      simp at hy
    · rw [List.head?_range', if_neg hz] at hy
      have : y = s.nextId := Option.some.inj hy.symm
      omega

theorem runFrames_growth (cost : Frame → Frame → Nat → Nat → Option ℚ) :
    ∀ (ys : List Frame) (s : RunState), StateOk s →
    StateOk (runFrames cost s ys) ∧
    s.nextId ≤ (runFrames cost s ys).nextId ∧
    ∃ tail, (runFrames cost s ys).assignedLog = s.assignedLog ++ tail ∧
      ∀ a ∈ tail, s.nextId ≤ a := by
  intro ys
  induction ys with
  | nil => intro s h; exact ⟨h, le_refl _, [], by simp [runFrames], by simp⟩
  | cons f fs ih =>
    intro s h
    obtain ⟨hok, hle, hlogeq⟩ := @stepRun_ok cost _ f h
    have hstep : runFrames cost s (f :: fs) = runFrames cost (stepRun cost s f) fs := rfl
    obtain ⟨ih1, ih2, tail, ih3, ih4⟩ := ih (stepRun cost s f) hok
    refine ⟨hstep ▸ ih1, hstep ▸ le_trans hle ih2, ?_⟩
    refine ⟨List.range' s.nextId ((stepRun cost s f).nextId - s.nextId) ++ tail, ?_, ?_⟩
    · rw [hstep, ih3, hlogeq, List.append_assoc]
    · intro a ha
      rcases List.mem_append.mp ha with ha | ha
      · exact (mem_range'_bounds ha).1
      · exact le_trans hle (ih4 a ha)

/-- **C4.**  Over any single tracking run, the sequence of universal ids
assigned by the ObjectTracks id counter is strictly increasing, and an id
that has been marked dead is never assigned to any object again: any id
assigned after a prefix of the run is strictly greater than every id marked
dead during that prefix. -/
theorem universal_ids_increasing_never_reused
    (cost : Frame → Frame → Nat → Nat → Option ℚ) (frames xs ys : List Frame)
    (hsplit : frames = xs ++ ys) :
    List.Chain' (· < ·) (runAll cost frames).assignedLog ∧
    ∀ d ∈ (runAll cost xs).deadLog,
      ∀ a ∈ (runAll cost frames).assignedLog.drop
        (runAll cost xs).assignedLog.length, d < a := by
  have hwhole : runAll cost frames = runFrames cost (runAll cost xs) ys := by
    rw [hsplit]
    simp only [runAll, runFrames, List.foldl_append]
  have hxok : StateOk (runAll cost xs) :=
    (runFrames_growth cost xs initState initState_ok).1
  obtain ⟨hok, hle, tail, hlogeq, htail⟩ :=
    runFrames_growth cost ys (runAll cost xs) hxok
  constructor
  · exact (hwhole ▸ hok).2.2.2
  · intro d hd a ha
    rw [hwhole, hlogeq, List.drop_left] at ha
    exact lt_of_lt_of_le (hxok.2.2.1 d hd) (htail a ha)

/-- Witness for C4 at a concrete run of three frames split after two. -/
theorem universal_ids_increasing_never_reused_witness :
    List.Chain' (· < ·)
      (runAll (fun _ _ => exCost) [⟨[1, 2]⟩, ⟨[5, 6]⟩, ⟨[7]⟩]).assignedLog ∧
    ∀ d ∈ (runAll (fun _ _ => exCost) [⟨[1, 2]⟩, ⟨[5, 6]⟩]).deadLog,
      ∀ a ∈ (runAll (fun _ _ => exCost) [⟨[1, 2]⟩, ⟨[5, 6]⟩, ⟨[7]⟩]).assignedLog.drop
        (runAll (fun _ _ => exCost) [⟨[1, 2]⟩, ⟨[5, 6]⟩]).assignedLog.length, d < a :=
  universal_ids_increasing_never_reused (fun _ _ => exCost)
    [⟨[1, 2]⟩, ⟨[5, 6]⟩, ⟨[7]⟩] [⟨[1, 2]⟩, ⟨[5, 6]⟩] [⟨[7]⟩] rfl

/-! ### Claim C5: the Relabeler's split resolution -/

/-- Modelled from the spec (§4.4): select the successor with the largest
overlap; a tie is broken by the lowest successor label so the choice is
deterministic. -/
def largestOverlap : List (Nat × Nat) → Option (Nat × Nat)
  | [] => none
  | x :: xs =>
    match largestOverlap xs with
    | none => some x
    | some b => some (if x.2 > b.2 ∨ (x.2 = b.2 ∧ x.1 < b.1) then x else b)

/-- Fresh universal ids for the non-inheriting successors of a split. -/
def assignFresh : List (Nat × Nat) → Nat → List (Nat × Nat) × Nat
  | [], n => ([], n)
  | s :: ss, n =>
    let r := assignFresh ss (n + 1)
    ((s.1, n) :: r.1, r.2)

/-- Modelled from the spec (§4.4): the outcome of resolving one split:
successor-label → universal-id assignments, the parent/child provenance
records (the non-inheriting successors with their new ids, recorded as
children of the predecessor), and the updated id counter. -/
structure SplitResult where
  assignments : List (Nat × Nat)
  children : List (Nat × Nat)
  counter : Nat
  deriving Repr, DecidableEq

/-- Modelled from the spec (§4.4): resolve a split.  The predecessor (with
universal id `predUid` and area `predArea` cells) overlaps the successors
`succs` (label, overlap in cells) at the next time.  The overlap-fraction
threshold is the fraction `tnum / tden`.  If the largest overlap exceeds
that fraction of the predecessor's area, the largest-overlap successor
inherits the predecessor's universal id and every other successor receives
a fresh universal id and is recorded as a child of the predecessor;
otherwise no lineage link is made. -/
def resolveSplit (predUid predArea : Nat) (succs : List (Nat × Nat))
    (tnum tden : Nat) (counter : Nat) : Option SplitResult :=
  match largestOverlap succs with
  | none => none
  | some b =>
    if b.2 * tden > tnum * predArea then
      let rest := succs.filter fun s => s.1 != b.1
      let fresh := assignFresh rest counter
      some ⟨(b.1, predUid) :: fresh.1, fresh.1, fresh.2⟩
    else none

theorem largestOverlap_eq_none : ∀ {xs : List (Nat × Nat)},
    largestOverlap xs = none ↔ xs = [] := by
  intro xs
  cases xs with
  | nil => simp [largestOverlap]
  | cons z zs =>
    simp only [largestOverlap]
    cases largestOverlap zs <;> simp

theorem largestOverlap_max : ∀ {xs : List (Nat × Nat)} {x : Nat × Nat},
    largestOverlap xs = some x → ∀ y ∈ xs, y.2 ≤ x.2 := by
  intro xs
  induction xs with
  | nil => intro x h; simp [largestOverlap] at h
  | cons z zs ih =>
    intro x h y hy
    simp only [largestOverlap] at h
    cases hz : largestOverlap zs with
    | none =>
      rw [hz] at h
      have hzs : zs = [] := largestOverlap_eq_none.mp hz
      subst hzs
      cases Option.some.inj h
      rcases List.mem_cons.mp hy with rfl | hy
      · exact le_refl _
      · simp at hy
    | some b =>
      rw [hz] at h
      have hx := Option.some.inj h
      by_cases hc : z.2 > b.2 ∨ (z.2 = b.2 ∧ z.1 < b.1)
      · rw [if_pos hc] at hx
        subst hx
        rcases List.mem_cons.mp hy with rfl | hy
        · exact le_refl _
        · have hb := ih hz y hy
          rcases hc with hc | ⟨hc, _⟩ <;> omega
      · rw [if_neg hc] at hx
        subst hx
        push_neg at hc
        rcases List.mem_cons.mp hy with rfl | hy
        · exact hc.1
        · exact ih hz y hy

theorem assignFresh_spec : ∀ (ss : List (Nat × Nat)) (n : Nat),
    (assignFresh ss n).1.map Prod.fst = ss.map Prod.fst ∧
    (assignFresh ss n).1.map Prod.snd = List.range' n ss.length ∧
    (assignFresh ss n).2 = n + ss.length := by
  intro ss
  induction ss with
  | nil => intro n; simp [assignFresh]
  | cons s ss ih =>
    intro n
    obtain ⟨i1, i2, i3⟩ := ih (n + 1)
    refine ⟨?_, ?_, ?_⟩
    · simp only [assignFresh, List.map_cons, i1]
    · simp only [assignFresh, List.map_cons, i2, List.length_cons, List.range'_succ]
    · simp only [assignFresh, i3, List.length_cons]
      omega

/-- **C5.**  For every split resolved by the Relabeler (one predecessor
overlapping several successors, with the largest overlap above the
overlap-fraction threshold of the predecessor's area), the successor with
the largest overlap inherits the predecessor's universal id, every other
successor receives a distinct fresh universal id different from the
predecessor's, and each non-inheriting successor is recorded as a child of
the predecessor. -/
theorem relabeler_split_largest_inherits (predUid predArea : Nat)
    (succs : List (Nat × Nat)) (tnum tden counter : Nat) (bl bo : Nat)
    (hbest : largestOverlap succs = some (bl, bo))
    (hthresh : bo * tden > tnum * predArea)
    (hcnt : predUid < counter) :
    ∃ res, resolveSplit predUid predArea succs tnum tden counter = some res ∧
      (∀ s ∈ succs, s.2 ≤ bo) ∧
      res.assignments = (bl, predUid) :: res.children ∧
      res.children.map Prod.fst = (succs.filter fun s => s.1 != bl).map Prod.fst ∧
      res.children.map Prod.snd =
        List.range' counter (succs.filter fun s => s.1 != bl).length ∧
      (∀ lu ∈ res.children, counter ≤ lu.2 ∧ lu.2 ≠ predUid) ∧
      (res.children.map Prod.snd).Nodup := by
  have hres : resolveSplit predUid predArea succs tnum tden counter =
      some ⟨(bl, predUid) :: (assignFresh (succs.filter fun s => s.1 != bl) counter).1,
        (assignFresh (succs.filter fun s => s.1 != bl) counter).1,
        (assignFresh (succs.filter fun s => s.1 != bl) counter).2⟩ := by
    simp only [resolveSplit, hbest, if_pos hthresh]
  obtain ⟨f1, f2, f3⟩ := assignFresh_spec (succs.filter fun s => s.1 != bl) counter
  refine ⟨_, hres, largestOverlap_max hbest, rfl, f1, f2, ?_, ?_⟩
  · intro lu hlu
    have hmem : lu.2 ∈ List.range' counter (succs.filter fun s => s.1 != bl).length := by
      rw [← f2]
      exact List.mem_map_of_mem Prod.snd hlu
    have := mem_range'_bounds hmem
    exact ⟨this.1, by omega⟩
  · rw [f2]
    exact ((List.chain'_iff_pairwise.mp (chain'_lt_range' _ _)).imp
      fun h => Nat.ne_of_lt h)

/-- Witness for C5 at the concrete example of the spec: predecessor A
(universal id 1, area 100) overlaps successors B (label 2, overlap 60) and
C (label 3, overlap 40); with threshold 1/2 (50 %), B inherits id 1 and C
receives the fresh id 2 and is recorded as a child of A. -/
theorem relabeler_split_largest_inherits_witness :
    ∃ res, resolveSplit 1 100 [(2, 60), (3, 40)] 1 2 2 = some res ∧
      (∀ s ∈ ([(2, 60), (3, 40)] : List (Nat × Nat)), s.2 ≤ 60) ∧
      res.assignments = (2, 1) :: res.children ∧
      res.children.map Prod.fst =
        (([(2, 60), (3, 40)] : List (Nat × Nat)).filter fun s => s.1 != 2).map Prod.fst ∧
      res.children.map Prod.snd =
        List.range' 2 (([(2, 60), (3, 40)] : List (Nat × Nat)).filter
          fun s => s.1 != 2).length ∧
      (∀ lu ∈ res.children, 2 ≤ lu.2 ∧ lu.2 ≠ 1) ∧
      (res.children.map Prod.snd).Nodup :=
  relabeler_split_largest_inherits 1 100 [(2, 60), (3, 40)] 1 2 2 2 60
    (by decide) (by decide) (by decide)

/-! ### Claims C7 and C10: hierarchy processing order and default options -/

/-- Modelled from the spec (§2, §3) and the tutorials: the options of one
object type as seen by the tracking loop: its name and whether it carries
tracking (matching) options. -/
structure ObjOptions where
  name : String
  tracked : Bool
  deriving Repr, DecidableEq

/-- Modelled from the spec (§3, §5) and the tutorial run transcripts: the
per-timestep processing trace of the hierarchy.  Levels are processed in
list order and, within one level, each object type in turn; each event
records the hierarchy level, the object name and whether a match step runs
for it (exactly when the object carries tracking options). -/
def levelTrace : Nat → List (List ObjOptions) → List (Nat × String × Bool)
  | _, [] => []
  | k, objs :: rest =>
    objs.map (fun o => (k, o.name, o.tracked)) ++ levelTrace (k + 1) rest

/-- The full processing trace of one timestep. -/
def timestepTrace (levels : List (List ObjOptions)) : List (Nat × String × Bool) :=
  levelTrace 0 levels

/-- The full processing trace of a run: every object of every level is
processed (detected) at every timestep, in hierarchy order. -/
def runTrace : List Nat → List (List ObjOptions) → List (Nat × Nat × String × Bool)
  | [], _ => []
  | t :: ts, levels =>
    ((timestepTrace levels).map fun e => (t, e)) ++ runTrace ts levels

/-- Modelled from thuner.default.track as exercised by the tutorials: level 0
holds the convective, middle and anvil objects, level 1 the grouped mcs
object; only convective and mcs carry tracking options ("only the mcs and
convective objects are matched between times"). -/
def defaultTrackLevels : List (List ObjOptions) :=
  [[⟨"convective", true⟩, ⟨"middle", false⟩, ⟨"anvil", false⟩],
   [⟨"mcs", true⟩]]

/-- Names of the object types for which a match step runs. -/
def matchedObjects (levels : List (List ObjOptions)) : List String :=
  (timestepTrace levels).filterMap fun e => if e.2.2 then some e.2.1 else none

/-- Whether tracking produces a cross-frame universal-id timeline for an
object type: exactly when a match step runs for it. -/
def hasUidTimeline (levels : List (List ObjOptions)) (nm : String) : Bool :=
  (timestepTrace levels).any fun e => e.2.1 == nm && e.2.2

theorem levelTrace_fst_bound : ∀ (ls : List (List ObjOptions)) (k : Nat),
    ∀ e ∈ levelTrace k ls, k ≤ e.1 := by
  intro ls
  induction ls with
  | nil => intro k e he; simp [levelTrace] at he
  | cons objs rest ih =>
    intro k e he
    rcases List.mem_append.mp he with he | he
    · obtain ⟨o, _, rfl⟩ := List.mem_map.mp he
      exact le_refl k
    · exact le_trans (Nat.le_succ k) (ih (k + 1) e he)

theorem levelTrace_pairwise : ∀ (ls : List (List ObjOptions)) (k : Nat),
    List.Pairwise (fun a b => a.1 ≤ b.1) (levelTrace k ls) := by
  intro ls
  induction ls with
  | nil => intro k; simp [levelTrace]
  | cons objs rest ih =>
    intro k
    rw [levelTrace, List.pairwise_append]
    refine ⟨?_, ih (k + 1), ?_⟩
    · clear ih
      induction objs with
      | nil => simp
      | cons o os iho =>
        rw [List.map_cons]
        refine List.Pairwise.cons ?_ iho
        intro b hb
        obtain ⟨o', _, rfl⟩ := List.mem_map.mp hb
        exact le_refl k
    · intro a ha b hb
      obtain ⟨o, _, rfl⟩ := List.mem_map.mp ha
      exact le_trans (Nat.le_succ k) (levelTrace_fst_bound rest (k + 1) b hb)

/-- **C7.**  In every tracking run, within each timestep the hierarchy
levels are processed strictly in order: an event of a higher level never
occurs in the per-timestep processing trace before any event of a lower
level, so a level-1 grouped object (e.g. an MCS) is never updated for a
timestep before every level-0 ObjectTrack has been processed for it. -/
theorem hierarchy_levels_processed_in_order (levels : List (List ObjOptions))
    (i j : Fin (timestepTrace levels).length)
    (hlt : ((timestepTrace levels).get j).1 < ((timestepTrace levels).get i).1) :
    j < i := by
  by_contra hle
  push_neg at hle
  simp only [timestepTrace] at hlt
  rcases lt_or_eq_of_le hle with hij | hij
  · have hp := levelTrace_pairwise levels 0
    have := List.pairwise_iff_get.mp hp i j hij
    omega
  · rw [hij] at hlt
    omega

/-- Witness for C7: in the default hierarchy, the convective event (index 0,
level 0) precedes the mcs event (index 3, level 1). -/
theorem hierarchy_levels_processed_in_order_witness :
    (⟨0, by decide⟩ : Fin (timestepTrace defaultTrackLevels).length) <
      (⟨3, by decide⟩ : Fin (timestepTrace defaultTrackLevels).length) :=
  hierarchy_levels_processed_in_order defaultTrackLevels ⟨3, by decide⟩ ⟨0, by decide⟩
    (by decide)

theorem runTrace_mem : ∀ (times : List Nat) (levels : List (List ObjOptions))
    (t : Nat) (e : Nat × String × Bool),
    (t, e) ∈ runTrace times levels ↔ t ∈ times ∧ e ∈ timestepTrace levels := by
  intro times
  induction times with
  | nil => intro levels t e; simp [runTrace]
  | cons s ts ih =>
    intro levels t e
    simp only [runTrace, List.mem_append, List.mem_map, ih, List.mem_cons]
    constructor
    · rintro (⟨e', he', heq⟩ | ⟨ht, he⟩)
      · cases heq
        exact ⟨Or.inl rfl, he'⟩
      · exact ⟨Or.inr ht, he⟩
    · rintro ⟨rfl | ht, he⟩
      · exact Or.inl ⟨e, he, rfl⟩
      · exact Or.inr ⟨ht, he⟩

/-- **C10.**  In the default track options, level 0 consists of the
convective, middle and anvil object types and level 1 of the grouped mcs
object; exactly convective and mcs carry tracking options and are matched
between consecutive times; middle and anvil are processed (detected) at
every timestep of every run, but no match step is ever run for them, and no
cross-frame universal-id timeline is produced for them. -/
theorem default_track_only_convective_and_mcs_matched (times : List Nat) :
    (defaultTrackLevels.map (List.map ObjOptions.name) =
      [["convective", "middle", "anvil"], ["mcs"]]) ∧
    matchedObjects defaultTrackLevels = ["convective", "mcs"] ∧
    (∀ t ∈ times, ∀ o ∈ (["convective", "middle", "anvil", "mcs"] : List String),
      ∃ k m, (t, k, o, m) ∈ runTrace times defaultTrackLevels) ∧
    (∀ t k m, (t, k, "middle", m) ∈ runTrace times defaultTrackLevels → m = false) ∧
    (∀ t k m, (t, k, "anvil", m) ∈ runTrace times defaultTrackLevels → m = false) ∧
    hasUidTimeline defaultTrackLevels "middle" = false ∧
    hasUidTimeline defaultTrackLevels "anvil" = false ∧
    hasUidTimeline defaultTrackLevels "convective" = true ∧
    hasUidTimeline defaultTrackLevels "mcs" = true := by
  have htrace : timestepTrace defaultTrackLevels =
      [(0, "convective", true), (0, "middle", false), (0, "anvil", false),
       (1, "mcs", true)] := rfl
  refine ⟨rfl, rfl, ?_, ?_, ?_, rfl, rfl, rfl, rfl⟩
  · intro t ht o ho
    rcases List.mem_cons.mp ho with rfl | ho
    · exact ⟨0, true, (runTrace_mem times _ t _).mpr ⟨ht, by rw [htrace]; decide⟩⟩
    rcases List.mem_cons.mp ho with rfl | ho
    · exact ⟨0, false, (runTrace_mem times _ t _).mpr ⟨ht, by rw [htrace]; decide⟩⟩
    rcases List.mem_cons.mp ho with rfl | ho
    · exact ⟨0, false, (runTrace_mem times _ t _).mpr ⟨ht, by rw [htrace]; decide⟩⟩
    rcases List.mem_cons.mp ho with rfl | ho
    · exact ⟨1, true, (runTrace_mem times _ t _).mpr ⟨ht, by rw [htrace]; decide⟩⟩
    · simp at ho
  · intro t k m hm
    have he := ((runTrace_mem times _ t _).mp hm).2
    rw [htrace] at he
    simp only [List.mem_cons, List.mem_singleton] at he
    rcases he with he | he | he | he | he <;> simp_all
  · intro t k m hm
    have he := ((runTrace_mem times _ t _).mp hm).2
    rw [htrace] at he
    simp only [List.mem_cons, List.mem_singleton] at he
    rcases he with he | he | he | he | he <;> simp_all

/-- Witness for C10 at a concrete list of timesteps. -/
theorem default_track_only_convective_and_mcs_matched_witness :
    matchedObjects defaultTrackLevels = ["convective", "mcs"] ∧
    (∃ k m, ((7 : Nat), k, "middle", m) ∈ runTrace [7, 8] defaultTrackLevels) ∧
    hasUidTimeline defaultTrackLevels "middle" = false := by
  obtain ⟨h1, h2, h3, h4, h5, h6, h7, h8, h9⟩ :=
    default_track_only_convective_and_mcs_matched [7, 8]
  exact ⟨h2, h3 7 (by decide) "middle" (by decide), h6⟩

/-! ### Claim C8: fallback from local to global flow -/

/-- Modelled from the spec (§4.1): the FlowEstimator result for one object at
one timestep: the local cross-correlation displacement with its correlation
confidence (absent when the object is too new to have a local flow), and
the global/box flow vector. -/
structure FlowResult where
  localFlow : Option ((Int × Int) × ℚ)
  globalFlow : Int × Int
  deriving Repr, DecidableEq

/-- Modelled from the spec (§4.1, §8): the displacement reported for an
object: the local cross-correlation vector when it is present and its
confidence reaches the threshold, otherwise the global/box flow vector.
The raw centroid difference is never consulted. -/
def reportedDisplacement (r : FlowResult) (threshold : ℚ) : Int × Int :=
  match r.localFlow with
  | none => r.globalFlow
  | some vc => if vc.2 < threshold then r.globalFlow else vc.1

/-- **C8.**  For every object whose local cross-correlation confidence is
below the configured threshold, or whose local flow is absent because the
object is too new, the displacement reported by the FlowEstimator/Matcher
equals the global/box flow vector — and therefore is never the raw centroid
difference whenever that difference disagrees with the global vector. -/
theorem flow_fallback_to_global (r : FlowResult) (threshold : ℚ)
    (centroidDiff : Int × Int)
    (h : r.localFlow = none ∨
      ∃ v conf, r.localFlow = some (v, conf) ∧ conf < threshold) :
    reportedDisplacement r threshold = r.globalFlow ∧
    (r.globalFlow ≠ centroidDiff → reportedDisplacement r threshold ≠ centroidDiff) := by
  have hg : reportedDisplacement r threshold = r.globalFlow := by
    rcases h with h | ⟨v, conf, h, hconf⟩
    · simp [reportedDisplacement, h]
    · simp [reportedDisplacement, h, if_pos hconf]
  exact ⟨hg, fun hne => hg ▸ hne⟩

/-- Witness for C8: a low-confidence local flow (9, 9) is discarded in
favour of the global vector (3, 4), which differs from the raw centroid
difference (5, 6). -/
theorem flow_fallback_to_global_witness :
    reportedDisplacement ⟨some ((9, 9), 0), (3, 4)⟩ 1 =
      (FlowResult.mk (some ((9, 9), 0)) (3, 4)).globalFlow ∧
    ((FlowResult.mk (some ((9, 9), 0)) (3, 4)).globalFlow ≠ (5, 6) →
      reportedDisplacement ⟨some ((9, 9), 0), (3, 4)⟩ 1 ≠ (5, 6)) :=
  flow_fallback_to_global ⟨some ((9, 9), 0), (3, 4)⟩ 1 (5, 6)
    (Or.inr ⟨(9, 9), 0, rfl, by decide⟩)

/-! ### Claim C9: group membership and id independence -/

/-- Modelled from the spec (§4.3): the per-timestep inputs of the grouping
step for one grouped object type: the grouped object's mask (the union of
the member footprints) and, per member object type, its current mask and
current universal-id assignment. -/
structure GroupStepInput where
  groupFrame : Frame
  memberData : List (String × Frame × List (Nat × Nat))
  deriving Repr, DecidableEq

/-- Modelled from the spec (§3, §4.3): the state of one grouped object type:
its own ObjectTracks state (the grouped mask is matched across time exactly
like a level-0 object) plus the membership table mapping each grouped
object's universal id to its member (object type, universal id) pairs. -/
structure GroupState where
  track : RunState
  membership : List (Nat × List (String × Nat))
  deriving Repr, DecidableEq

/-- Modelled from the spec (§4.3): translate the label-level membership
computed from the current masks into universal ids, using the group's and
the members' current assignments. -/
def membershipTable
    (computeMembers : Frame → List (String × Frame) → List (Nat × List (String × Nat)))
    (groupFrame : Frame) (memberData : List (String × Frame × List (Nat × Nat)))
    (groupAssign : List (Nat × Nat)) : List (Nat × List (String × Nat)) :=
  (computeMembers groupFrame (memberData.map fun d => (d.1, d.2.1))).filterMap
    fun gm =>
      match lookupA gm.1 groupAssign with
      | none => none
      | some gu => some (gu, gm.2.filterMap fun m =>
          match memberData.find? fun d => d.1 == m.1 with
          | none => none
          | some d =>
            match lookupA m.2 d.2.2 with
            | none => none
            | some mu => some (m.1, mu))

/-- Modelled from the spec (§4.3): advance a grouped object type by one
timestep: match the grouped mask across time exactly like a level-0
object, and recompute the membership table afresh from the current
masks (never carrying it forward). -/
def advanceGroup (cost : Frame → Frame → Nat → Nat → Option ℚ)
    (computeMembers : Frame → List (String × Frame) → List (Nat × List (String × Nat)))
    (s : GroupState) (inp : GroupStepInput) : GroupState :=
  let track2 := stepRun cost s.track inp.groupFrame
  ⟨track2, membershipTable computeMembers inp.groupFrame inp.memberData track2.current⟩

/-- Run a grouped object type over a sequence of timestep inputs. -/
def runGroup (cost : Frame → Frame → Nat → Nat → Option ℚ)
    (computeMembers : Frame → List (String × Frame) → List (Nat × List (String × Nat)))
    (s : GroupState) (inps : List GroupStepInput) : GroupState :=
  inps.foldl (advanceGroup cost computeMembers) s

theorem runGroup_track_eq (cost : Frame → Frame → Nat → Nat → Option ℚ)
    (cm cm' : Frame → List (String × Frame) → List (Nat × List (String × Nat))) :
    ∀ (inps inps' : List GroupStepInput) (s s' : GroupState),
    s.track = s'.track →
    inps.map GroupStepInput.groupFrame = inps'.map GroupStepInput.groupFrame →
    (runGroup cost cm s inps).track = (runGroup cost cm' s' inps').track := by
  intro inps
  induction inps with
  | nil =>
    intro inps' s s' htr hfr
    cases inps' with
    | nil => exact htr
    | cons i is => simp at hfr
  | cons i is ih =>
    intro inps' s s' htr hfr
    cases inps' with
    | nil => simp at hfr
    | cons j js =>
      simp only [List.map_cons, List.cons.injEq] at hfr
      have hstep : (advanceGroup cost cm s i).track =
          (advanceGroup cost cm' s' j).track := by
        simp only [advanceGroup]
        rw [htr, hfr.1]
      exact ih js (advanceGroup cost cm s i) (advanceGroup cost cm' s' j) hstep hfr.2

/-- **C9.**  For every grouped object type: (i) the grouped object's entire
universal-id tracking state depends only on the sequence of grouped masks —
changing the member universal-id assignments (or the membership
computation, or the initial membership table) at every timestep leaves the
group's tracking state unchanged, so member ids may change across timesteps
while the group's id timeline persists, and vice versa; (ii) the membership
table is recomputed afresh each timestep from that timestep's current masks
and assignments, and never carried forward: after any step it equals the
pure function `membershipTable` of the current inputs, independently of the
initial membership table. -/
theorem group_membership_recomputed_and_id_independent
    (cost : Frame → Frame → Nat → Nat → Option ℚ)
    (cm cm' : Frame → List (String × Frame) → List (Nat × List (String × Nat)))
    (tr0 : RunState) (m0 m0' : List (Nat × List (String × Nat)))
    (inps inps' : List GroupStepInput) (inp : GroupStepInput)
    (hfr : inps.map GroupStepInput.groupFrame = inps'.map GroupStepInput.groupFrame) :
    (runGroup cost cm ⟨tr0, m0⟩ inps).track =
      (runGroup cost cm' ⟨tr0, m0'⟩ inps').track ∧
    (runGroup cost cm ⟨tr0, m0⟩ (inps ++ [inp])).membership =
      membershipTable cm inp.groupFrame inp.memberData
        (stepRun cost (runGroup cost cm ⟨tr0, m0⟩ inps).track inp.groupFrame).current ∧
    (runGroup cost cm ⟨tr0, m0⟩ (inps ++ [inp])).membership =
      (runGroup cost cm ⟨tr0, m0'⟩ (inps ++ [inp])).membership := by
  refine ⟨runGroup_track_eq cost cm cm' inps inps' ⟨tr0, m0⟩ ⟨tr0, m0'⟩ rfl hfr, ?_, ?_⟩
  · rw [runGroup, List.foldl_append]
    rfl
  · have htr : (runGroup cost cm ⟨tr0, m0⟩ inps).track =
        (runGroup cost cm ⟨tr0, m0'⟩ inps).track :=
      runGroup_track_eq cost cm cm inps inps ⟨tr0, m0⟩ ⟨tr0, m0'⟩ rfl rfl
    rw [runGroup, runGroup, List.foldl_append, List.foldl_append]
    show (advanceGroup cost cm (runGroup cost cm ⟨tr0, m0⟩ inps) inp).membership =
      (advanceGroup cost cm (runGroup cost cm ⟨tr0, m0'⟩ inps) inp).membership
    simp only [advanceGroup]
    rw [htr]

/-- Witness for C9: two runs over the same grouped masks whose member
assignments differ (member label 4 carries universal id 2 in one run and 9
in the other) have identical group tracking state. -/
theorem group_membership_recomputed_and_id_independent_witness :
    (runGroup (fun _ _ => exCost) (fun _ _ => [(1, [("convective", 4)])])
        ⟨initState, []⟩ [⟨⟨[1]⟩, [("convective", ⟨[4]⟩, [(4, 2)])]⟩]).track =
      (runGroup (fun _ _ => exCost) (fun _ _ => [])
        ⟨initState, [(5, [])]⟩ [⟨⟨[1]⟩, [("convective", ⟨[4]⟩, [(4, 9)])]⟩]).track ∧
    (runGroup (fun _ _ => exCost) (fun _ _ => [(1, [("convective", 4)])])
        ⟨initState, []⟩ ([⟨⟨[1]⟩, [("convective", ⟨[4]⟩, [(4, 2)])]⟩] ++
          [⟨⟨[2]⟩, []⟩])).membership =
      membershipTable (fun _ _ => [(1, [("convective", 4)])])
        (GroupStepInput.mk ⟨[2]⟩ []).groupFrame (GroupStepInput.mk ⟨[2]⟩ []).memberData
        (stepRun (fun _ _ => exCost)
          (runGroup (fun _ _ => exCost) (fun _ _ => [(1, [("convective", 4)])])
            ⟨initState, []⟩ [⟨⟨[1]⟩, [("convective", ⟨[4]⟩, [(4, 2)])]⟩]).track
          (GroupStepInput.mk ⟨[2]⟩ []).groupFrame).current ∧
    (runGroup (fun _ _ => exCost) (fun _ _ => [(1, [("convective", 4)])])
        ⟨initState, []⟩ ([⟨⟨[1]⟩, [("convective", ⟨[4]⟩, [(4, 2)])]⟩] ++
          [⟨⟨[2]⟩, []⟩])).membership =
      (runGroup (fun _ _ => exCost) (fun _ _ => [(1, [("convective", 4)])])
        ⟨initState, [(5, [])]⟩ ([⟨⟨[1]⟩, [("convective", ⟨[4]⟩, [(4, 2)])]⟩] ++
          [⟨⟨[2]⟩, []⟩])).membership :=
  group_membership_recomputed_and_id_independent (fun _ _ => exCost)
    (fun _ _ => [(1, [("convective", 4)])]) (fun _ _ => [])
    initState [] [(5, [])]
    [⟨⟨[1]⟩, [("convective", ⟨[4]⟩, [(4, 2)])]⟩]
    [⟨⟨[1]⟩, [("convective", ⟨[4]⟩, [(4, 9)])]⟩]
    ⟨⟨[2]⟩, []⟩ (by decide)

/-! ### Claim C6: interval-parallel tracking with stitching -/

/-- The per-frame assignment timeline entries produced when continuing a run
from a given state. -/
def tlFrom (cost : Frame → Frame → Nat → Nat → Option ℚ) (s : RunState) :
    List Frame → List (List (Nat × Nat))
  | [] => []
  | f :: fs => (stepRun cost s f).current :: tlFrom cost (stepRun cost s f) fs

theorem runFrames_timeline (cost : Frame → Frame → Nat → Nat → Option ℚ) :
    ∀ (fs : List Frame) (s : RunState),
    (runFrames cost s fs).timeline = s.timeline ++ tlFrom cost s fs := by
  intro fs
  induction fs with
  | nil => intro s; simp [runFrames, tlFrom]
  | cons f fs ih =>
    intro s
    have h1 : runFrames cost s (f :: fs) = runFrames cost (stepRun cost s f) fs := rfl
    rw [h1, ih, tlFrom]
    rw [stepRun_timeline, stepRun_current, List.append_assoc]
    rfl

theorem lookupA_eq_none {q : Nat} : ∀ {xs : List (Nat × Nat)},
    q ∉ xs.map Prod.fst → lookupA q xs = none := by
  intro xs
  induction xs with
  | nil => intro _; rfl
  | cons x xs ih =>
    obtain ⟨a, b⟩ := x
    intro h
    simp only [List.map_cons, List.mem_cons] at h
    push_neg at h
    simp only [lookupA, if_neg h.1]
    exact ih h.2

theorem assignCur_mem_of_fm : ∀ (ls : List Nat) (fm : Nat → Option Nat) (n c u : Nat),
    c ∈ ls → fm c = some u → (c, u) ∈ (assignCur ls fm n).1 := by
  intro ls
  induction ls with
  | nil => intro fm n c u hc _; simp at hc
  | cons d ds ih =>
    intro fm n c u hc hfm
    rcases List.mem_cons.mp hc with rfl | hc
    · simp only [assignCur, hfm]
      exact List.mem_cons_self _ _
    · cases hd : fm d with
      | some v =>
        simp only [assignCur, hd]
        exact List.mem_cons_of_mem _ (ih fm n c u hc hfm)
      | none =>
        simp only [assignCur, hd]
        exact List.mem_cons_of_mem _ (ih fm (n + 1) c u hc hfm)

theorem assignCur_none_counter (fm : Nat → Option Nat) (hfm : ∀ c, fm c = none) :
    ∀ (ls : List Nat) (n : Nat), (assignCur ls fm n).2.2 = n + ls.length := by
  intro ls
  induction ls with
  | nil => intro n; simp [assignCur]
  | cons c cs ih =>
    intro n
    simp only [assignCur, hfm c, ih (n + 1), List.length_cons]
    omega

theorem assignCur_none_zip (fm : Nat → Option Nat) (hfm : ∀ c, fm c = none) :
    ∀ (W : List (Nat × Nat)) (n : Nat) (ρ : Nat → Nat),
    (∀ i : Fin W.length, ρ (W.get i).2 = n + i) →
    (assignCur (W.map Prod.fst) fm n).1 = W.map (fun lu => (lu.1, ρ lu.2)) := by
  intro W
  induction W with
  | nil => intro n ρ _; simp [assignCur]
  | cons w ws ih =>
    intro n ρ hρ
    simp only [List.map_cons, assignCur, hfm]
    have h0 : ρ w.2 = n := by
      have := hρ ⟨0, by simp⟩
      simpa using this
    rw [ih (n + 1) ρ ?_, h0]
    intro i
    have := hρ ⟨i.1 + 1, by simp [Nat.succ_lt_succ_iff, i.2]⟩
    simp only [List.get_cons_succ] at this
    rw [this]
    omega

/-- Well-formedness invariant of a running tracking state, relative to the
frames it has consumed (whose label lists are duplicate-free). -/
def InvR (s : RunState) : Prop :=
  s.current.map Prod.fst = maskLabels s.prevFrame ∧
  (maskLabels s.prevFrame).Nodup ∧
  (s.current.map Prod.snd).Nodup ∧
  (∀ u ∈ s.current.map Prod.snd, u < s.nextId) ∧
  1 ≤ s.nextId ∧
  (∀ a ∈ s.timeline, ∀ u ∈ a.map Prod.snd, u < s.nextId)

theorem initState_invR : InvR initState := by
  refine ⟨rfl, ?_, ?_, ?_, ?_, ?_⟩ <;> simp [initState, maskLabels]

theorem stepRun_invR {cost : Frame → Frame → Nat → Nat → Option ℚ} {s : RunState}
    {f : Frame} (h : InvR s) (hf : f.labels.Nodup) :
    InvR (stepRun cost s f) ∧ s.nextId ≤ (stepRun cost s f).nextId := by
  obtain ⟨ha, hb, hc, hd, he, ht⟩ := h
  have hspec := assignCur_spec
    (fmOf (matchPairs (stepCost cost s f) (s.current.map Prod.fst) f.labels) s.current)
    f.labels s.nextId
  have hkeys : (s.current.map Prod.fst).Nodup := ha ▸ hb
  have hbd := fmOf_bound
    (M := matchPairs (stepCost cost s f) (s.current.map Prod.fst) f.labels) hd
  have hle : s.nextId ≤ (stepRun cost s f).nextId := by
    rw [stepRun_nextId, buildRecord_counter]
    exact hspec.2.1
  refine ⟨⟨?_, ?_, ?_, ?_, ?_, ?_⟩, hle⟩
  · rw [stepRun_current, buildRecord_uidOf, stepRun_prevFrame]
    exact hspec.1
  · rw [stepRun_prevFrame]
    exact hf
  · rw [stepRun_current, buildRecord_uidOf]
    exact assignCur_snd_nodup _ _ _ hf (fmOf_inj (matchPairs_fst_nodup hkeys) hc) hbd
  · intro u hu
    rw [stepRun_current, buildRecord_uidOf] at hu
    rw [stepRun_nextId, buildRecord_counter]
    exact assignCur_snd_lt _ _ _ hbd u hu
  · exact le_trans he hle
  · intro a haa u hu
    rw [stepRun_timeline] at haa
    rcases List.mem_append.mp haa with haa | haa
    · exact lt_of_lt_of_le (ht a haa u hu) hle
    · simp only [List.mem_singleton] at haa
      subst haa
      rw [buildRecord_uidOf] at hu
      rw [stepRun_nextId, buildRecord_counter]
      exact assignCur_snd_lt _ _ _ hbd u hu

theorem runFrames_invR {cost : Frame → Frame → Nat → Nat → Option ℚ} :
    ∀ {fs : List Frame} {s : RunState}, InvR s → (∀ f ∈ fs, f.labels.Nodup) →
    InvR (runFrames cost s fs) ∧ s.nextId ≤ (runFrames cost s fs).nextId := by
  intro fs
  induction fs with
  | nil => intro s h _; exact ⟨h, le_refl _⟩
  | cons f fs ih =>
    intro s h hnd
    obtain ⟨h1, h2⟩ := @stepRun_invR cost _ _ h (hnd f (List.mem_cons_self _ _))
    obtain ⟨h3, h4⟩ := ih h1 fun g hg => hnd g (List.mem_cons_of_mem _ hg)
    exact ⟨h3, le_trans h2 h4⟩

/-- Simulation relation between the whole-run state and the second
interval's local state: same previous mask, universal ids related by the
renaming `ρ`, with `ρ` translating the fresh-id counter of the first run to
the fresh-id counter of the second. -/
def SimRel (ρ : Nat → Nat) (sW sL : RunState) : Prop :=
  sL.prevFrame = sW.prevFrame ∧
  sL.current = sW.current.map (fun lu => (lu.1, ρ lu.2)) ∧
  (∀ j, ρ (sW.nextId + j) = sL.nextId + j)

theorem map_rho_fst (ρ : Nat → Nat) (xs : List (Nat × Nat)) :
    (xs.map fun lu => (lu.1, ρ lu.2)).map Prod.fst = xs.map Prod.fst := by
  induction xs with
  | nil => rfl
  | cons x xs ih => simp only [List.map_cons, ih]

theorem assignCur_map (ρ : Nat → Nat) : ∀ (ls : List Nat) (fm1 fm2 : Nat → Option Nat)
    (n1 n2 : Nat),
    (∀ c, fm2 c = (fm1 c).map ρ) →
    (∀ j, ρ (n1 + j) = n2 + j) →
    (assignCur ls fm2 n2).1 = (assignCur ls fm1 n1).1.map (fun lu => (lu.1, ρ lu.2)) ∧
    (∀ j, ρ ((assignCur ls fm1 n1).2.2 + j) = (assignCur ls fm2 n2).2.2 + j) := by
  intro ls
  induction ls with
  | nil => intro fm1 fm2 n1 n2 _ hfr; exact ⟨rfl, hfr⟩
  | cons c cs ih =>
    intro fm1 fm2 n1 n2 hfm hfr
    cases h1 : fm1 c with
    | some u =>
      have h2 : fm2 c = some (ρ u) := by rw [hfm, h1]; rfl
      obtain ⟨e1, e2⟩ := ih fm1 fm2 n1 n2 hfm hfr
      constructor
      · simp only [assignCur, h1, h2, List.map_cons, e1]
      · simpa only [assignCur, h1, h2] using e2
    | none =>
      have h2 : fm2 c = none := by rw [hfm, h1]; rfl
      have hfr2 : ∀ j, ρ (n1 + 1 + j) = n2 + 1 + j := by
        intro j
        have he : n1 + 1 + j = n1 + (j + 1) := by omega
        rw [he, hfr (j + 1)]
        omega
      obtain ⟨e1, e2⟩ := ih fm1 fm2 (n1 + 1) (n2 + 1) hfm hfr2
      have h0 : ρ n1 = n2 := by
        have := hfr 0
        simpa using this
      constructor
      · simp only [assignCur, h1, h2, List.map_cons, e1, h0]
      · simpa only [assignCur, h1, h2] using e2

theorem stepRun_sim {cost : Frame → Frame → Nat → Nat → Option ℚ} {ρ : Nat → Nat}
    {sW sL : RunState} (f : Frame) (h : SimRel ρ sW sL) :
    SimRel ρ (stepRun cost sW f) (stepRun cost sL f) := by
  obtain ⟨hpf, hcur, hfr⟩ := h
  have hsc : stepCost cost sL f = stepCost cost sW f := by
    simp only [stepCost, hpf]
  have hkeys : sL.current.map Prod.fst = sW.current.map Prod.fst := by
    rw [hcur, map_rho_fst]
  have hMeq : matchPairs (stepCost cost sL f) (sL.current.map Prod.fst) f.labels =
      matchPairs (stepCost cost sW f) (sW.current.map Prod.fst) f.labels := by
    rw [hsc, hkeys]
  have hfm : ∀ c,
      fmOf (matchPairs (stepCost cost sW f) (sW.current.map Prod.fst) f.labels)
          sL.current c =
      (fmOf (matchPairs (stepCost cost sW f) (sW.current.map Prod.fst) f.labels)
          sW.current c).map ρ := by
    intro c
    simp only [fmOf]
    cases hmp : matchedPrev
        (matchPairs (stepCost cost sW f) (sW.current.map Prod.fst) f.labels) c with
    | none => simp
    | some l => simp [hcur, lookupA_map_snd]
  obtain ⟨e1, e2⟩ := assignCur_map ρ f.labels
    (fmOf (matchPairs (stepCost cost sW f) (sW.current.map Prod.fst) f.labels) sW.current)
    (fmOf (matchPairs (stepCost cost sW f) (sW.current.map Prod.fst) f.labels) sL.current)
    sW.nextId sL.nextId hfm hfr
  refine ⟨?_, ?_, ?_⟩
  · rw [stepRun_prevFrame, stepRun_prevFrame]
  · rw [stepRun_current, stepRun_current, buildRecord_uidOf, buildRecord_uidOf, hMeq, e1]
  · intro j
    rw [stepRun_nextId, stepRun_nextId, buildRecord_counter, buildRecord_counter, hMeq]
    exact e2 j

theorem tlFrom_sim {cost : Frame → Frame → Nat → Nat → Option ℚ} {ρ : Nat → Nat} :
    ∀ (fs : List Frame) {sW sL : RunState}, SimRel ρ sW sL →
    tlFrom cost sL fs = (tlFrom cost sW fs).map (List.map fun lu => (lu.1, ρ lu.2)) ∧
    SimRel ρ (runFrames cost sW fs) (runFrames cost sL fs) := by
  intro fs
  induction fs with
  | nil => intro sW sL h; exact ⟨rfl, h⟩
  | cons f fs ih =>
    intro sW sL h
    have hstep := @stepRun_sim cost _ _ _ f h
    obtain ⟨e1, e2⟩ := ih hstep
    refine ⟨?_, e2⟩
    simp only [tlFrom, List.map_cons, e1, hstep.2.1]

/-- The boundary links: for each matched (previous label, current label)
pair, the pair (local id in the second interval, universal id in the
first interval). -/
def linksOf (pairs a1 a2 : List (Nat × Nat)) : List (Nat × Nat) :=
  pairs.filterMap fun lc =>
    match lookupA lc.1 a1, lookupA lc.2 a2 with
    | some u, some q => some (q, u)
    | _, _ => none

/-- Modelled from the spec (§4.5): re-run matching across an interval
boundary: the last frame of interval i (with its final universal-id
assignment `a1`) against the first real frame of interval i+1 (with
interval i+1's local assignment `a2`); each matched pair links the local id
of the second interval to the universal id of the first. -/
def stitchBoundary (cost : Frame → Frame → Nat → Nat → Option ℚ) (fk fk1 : Frame)
    (a1 a2 : List (Nat × Nat)) : List (Nat × Nat) :=
  linksOf (matchPairs (cost fk fk1) (a1.map Prod.fst) fk1.labels) a1 a2

/-- Modelled from the spec (§4.5): two-interval parallel tracking with
stitching.  The time range is split at index `k`: interval 1 covers frames
0..k and interval 2 covers frames k..end, with frame k as the warm-up
overlap whose output is discarded.  Each interval is tracked independently
with its own id counter.  Stitching (a) re-runs matching across the
boundary to link the id lineages that cross it, and (b) offsets every other
interval-2 id by the running total of ids used by interval 1; the per-frame
assignment timelines are then concatenated in time order. -/
def stitchTwo (cost : Frame → Frame → Nat → Nat → Option ℚ)
    (frames : List Frame) (k : Nat) : List (List (Nat × Nat)) :=
  let r1 := runAll cost (frames.take (k + 1))
  let r2 := runAll cost (frames.drop k)
  let m := r1.nextId - 1
  let tail2 := r2.timeline.drop 1
  let fk := (frames.drop k).headD ⟨[]⟩
  let fk1 := ((frames.drop k).drop 1).headD ⟨[]⟩
  let a2 := tail2.headD []
  let links := stitchBoundary cost fk fk1 r1.current a2
  let rename := fun q =>
    match lookupA q links with
    | some u => u
    | none => q + m
  r1.timeline ++ tail2.map (List.map fun lu => (lu.1, rename lu.2))

/-- The overall renaming between single-run universal ids and stitched ids:
ids created by interval 1 are kept, ids created after the boundary are
shifted by the number of warm-up objects. -/
def stitchSigma (m0 p u : Nat) : Nat := if u < m0 then u else u + p

theorem stitchSigma_strictMono (m0 p : Nat) : StrictMono (stitchSigma m0 p) := by
  intro a b hab
  simp only [stitchSigma]
  by_cases h1 : a < m0 <;> by_cases h2 : b < m0 <;>
    simp only [if_pos, if_neg, h1, h2, if_true, if_false] <;> omega

/-- The id renaming relating the second interval's local ids to the
single-run universal ids: ids alive at the boundary map to their position
in the warm-up frame, later ids are translated between the two counters. -/
def stitchRho (us : List Nat) (m0 : Nat) (u : Nat) : Nat :=
  if u < m0 then us.indexOf u + 1 else u - m0 + us.length + 1

theorem stepRun_uid_closed {cost : Frame → Frame → Nat → Nat → Option ℚ}
    (P : Nat → Prop) (m0 : Nat) (hm0 : ∀ u, m0 ≤ u → P u)
    (s : RunState) (f : Frame)
    (h1 : ∀ u ∈ s.current.map Prod.snd, P u) (h2 : m0 ≤ s.nextId) :
    (∀ u ∈ (stepRun cost s f).current.map Prod.snd, P u) ∧
    m0 ≤ (stepRun cost s f).nextId := by
  constructor
  · intro u hu
    rw [stepRun_current, buildRecord_uidOf] at hu
    obtain ⟨⟨c, u'⟩, hm, he⟩ := List.mem_map.mp hu
    simp only at he
    rw [he] at hm
    rcases (assignCur_spec _ _ _).2.2.2 c u hm with hfm | ⟨_, hge, _⟩
    · simp only [fmOf, Option.bind_eq_some] at hfm
      obtain ⟨l, _, hl⟩ := hfm
      exact h1 u (List.mem_map_of_mem Prod.snd (lookupA_mem hl))
    · exact hm0 u (le_trans h2 hge)
  · rw [stepRun_nextId, buildRecord_counter]
    exact le_trans h2 (assignCur_spec _ _ _).2.1

theorem tlFrom_uid_closed {cost : Frame → Frame → Nat → Nat → Option ℚ}
    (P : Nat → Prop) (m0 : Nat) (hm0 : ∀ u, m0 ≤ u → P u) :
    ∀ (fs : List Frame) (s : RunState),
    (∀ u ∈ s.current.map Prod.snd, P u) → m0 ≤ s.nextId →
    ∀ e ∈ tlFrom cost s fs, ∀ u ∈ e.map Prod.snd, P u := by
  intro fs
  induction fs with
  | nil => intro s _ _ e he; simp [tlFrom] at he
  | cons f fs ih =>
    intro s h1 h2 e he
    obtain ⟨g1, g2⟩ := stepRun_uid_closed P m0 hm0 s f h1 h2
    rcases List.mem_cons.mp he with rfl | he
    · exact g1
    · exact ih _ g1 g2 e he

theorem linksOf_mem (pairs a1 a2 : List (Nat × Nat)) :
    ∀ kv ∈ linksOf pairs a1 a2, ∃ lc ∈ pairs,
      lookupA lc.1 a1 = some kv.2 ∧ lookupA lc.2 a2 = some kv.1 := by
  intro kv hkv
  simp only [linksOf, List.mem_filterMap] at hkv
  obtain ⟨lc, hlc, he⟩ := hkv
  cases h1 : lookupA lc.1 a1 with
  | none => rw [h1] at he; simp at he
  | some u =>
    cases h2 : lookupA lc.2 a2 with
    | none => rw [h1, h2] at he; simp at he
    | some q =>
      rw [h1, h2] at he
      simp only at he
      cases he
      exact ⟨lc, hlc, h1, h2⟩

theorem linksOf_lookup (a1 a2 : List (Nat × Nat)) (ρ : Nat → Nat)
    (hinj : ∀ u1 u2, u1 ∈ a1.map Prod.snd → u2 ∈ a1.map Prod.snd →
      ρ u1 = ρ u2 → u1 = u2)
    (hsnd : (a1.map Prod.snd).Nodup) :
    ∀ (pairs : List (Nat × Nat)), (pairs.map Prod.fst).Nodup →
    (∀ lc ∈ pairs, ∀ u, lookupA lc.1 a1 = some u → lookupA lc.2 a2 = some (ρ u)) →
    ∀ lc ∈ pairs, ∀ u, lookupA lc.1 a1 = some u →
      lookupA (ρ u) (linksOf pairs a1 a2) = some u := by
  intro pairs
  induction pairs with
  | nil => intro _ _ lc h; simp at h
  | cons lc0 rest ih =>
    intro hfst hcomp lc hlc u hu
    simp only [List.map_cons, List.nodup_cons] at hfst
    rcases List.mem_cons.mp hlc with rfl | hlc
    · have h2 := hcomp lc (List.mem_cons_self _ _) u hu
      simp only [linksOf, List.filterMap_cons, hu, h2]
      simp [lookupA]
    · cases h0 : lookupA lc0.1 a1 with
      | none =>
        simp only [linksOf, List.filterMap_cons, h0]
        exact ih hfst.2 (fun lc' h' => hcomp lc' (List.mem_cons_of_mem _ h')) lc hlc u hu
      | some u0 =>
        have h20 := hcomp lc0 (List.mem_cons_self _ _) u0 h0
        simp only [linksOf, List.filterMap_cons, h0, h20]
        have hne : lc.1 ≠ lc0.1 := by
          intro he
          exact hfst.1 (he ▸ List.mem_map_of_mem Prod.fst hlc)
        have hune : u ≠ u0 := by
          intro he
          exact hne (lookupA_inj hsnd hu (he ▸ h0))
        have hρne : ρ u ≠ ρ u0 := by
          intro he
          exact hune (hinj u u0
            (List.mem_map_of_mem Prod.snd (lookupA_mem hu))
            (List.mem_map_of_mem Prod.snd (lookupA_mem h0)) he)
        simp only [lookupA, if_neg hρne]
        exact ih hfst.2 (fun lc' h' => hcomp lc' (List.mem_cons_of_mem _ h')) lc hlc u hu

/-- Core of the stitching equivalence: continuing the whole run from the
boundary state `r1` and continuing the second interval from its warm-up
state `sL`, the renamed interval-2 timeline equals the σ-renamed whole-run
timeline. -/
theorem stitch_core (cost : Frame → Frame → Nat → Nat → Option ℚ)
    (r1 sL : RunState) (fk g0 : Frame) (rest : List Frame)
    (hinv1 : InvR r1) (hpf1 : r1.prevFrame = some fk)
    (hg0nd : g0.labels.Nodup)
    (hsim : SimRel (stitchRho (r1.current.map Prod.snd) r1.nextId) r1 sL) :
    r1.timeline ++ (tlFrom cost sL (g0 :: rest)).map (List.map fun lu =>
        (lu.1, match lookupA lu.2 (stitchBoundary cost fk g0 r1.current
            ((stepRun cost sL g0).current)) with
          | some u => u
          | none => lu.2 + (r1.nextId - 1))) =
      (r1.timeline ++ tlFrom cost r1 (g0 :: rest)).map
        (List.map fun lu => (lu.1, stitchSigma r1.nextId r1.current.length lu.2)) := by
  obtain ⟨ha, hb, hc, hd, he1, ht⟩ := hinv1
  have hkeys : r1.current.map Prod.fst = fk.labels := by
    rw [ha, hpf1]
    rfl
  have hfknd : fk.labels.Nodup := by
    have := hb
    rw [hpf1] at this
    exact this
  have huslen : (r1.current.map Prod.snd).length = r1.current.length :=
    List.length_map _ _
  -- basic facts about the renaming ρ
  have hρlow : ∀ u ∈ r1.current.map Prod.snd,
      stitchRho (r1.current.map Prod.snd) r1.nextId u ≤ r1.current.length := by
    intro u hu
    have hlt : u < r1.nextId := hd u hu
    rw [stitchRho, if_pos hlt]
    have := List.indexOf_lt_length.mpr hu
    omega
  have hρhigh : ∀ w, r1.nextId ≤ w →
      stitchRho (r1.current.map Prod.snd) r1.nextId w =
        w - r1.nextId + r1.current.length + 1 := by
    intro w hw
    rw [stitchRho, if_neg (by omega)]
    omega
  have hρinj : ∀ u1 u2, u1 ∈ r1.current.map Prod.snd → u2 ∈ r1.current.map Prod.snd →
      stitchRho (r1.current.map Prod.snd) r1.nextId u1 =
        stitchRho (r1.current.map Prod.snd) r1.nextId u2 → u1 = u2 := by
    intro u1 u2 h1 h2 he
    rw [stitchRho, stitchRho, if_pos (hd u1 h1), if_pos (hd u2 h2)] at he
    exact (List.indexOf_inj h1 h2).mp (by omega)
  -- the boundary match
  have hMbfst : ((matchPairs (cost fk g0) (r1.current.map Prod.fst) g0.labels).map
      Prod.fst).Nodup :=
    matchPairs_fst_nodup (by rw [hkeys]; exact hfknd)
  have hMbsnd : ((matchPairs (cost fk g0) (r1.current.map Prod.fst) g0.labels).map
      Prod.snd).Nodup := by
    rw [matchPairs]
    exact greedyMatch_snd_nodup hg0nd
  have hscW : stepCost cost r1 g0 = cost fk g0 := by
    simp only [stepCost, hpf1]
  have hW1eq : (stepRun cost r1 g0).current =
      (assignCur g0.labels (fmOf (matchPairs (cost fk g0) (r1.current.map Prod.fst)
        g0.labels) r1.current) r1.nextId).1 := by
    rw [stepRun_current, buildRecord_uidOf, hscW]
  have hsim1 := @stepRun_sim cost _ _ _ g0 hsim
  have hL1eq : (stepRun cost sL g0).current = (stepRun cost r1 g0).current.map
      (fun lu => (lu.1, stitchRho (r1.current.map Prod.snd) r1.nextId lu.2)) :=
    hsim1.2.1
  -- every boundary-matched pair yields ρ-compatible lookups
  have hcomp : ∀ lc ∈ matchPairs (cost fk g0) (r1.current.map Prod.fst) g0.labels,
      ∀ u, lookupA lc.1 r1.current = some u →
      lookupA lc.2 (stepRun cost sL g0).current =
        some (stitchRho (r1.current.map Prod.snd) r1.nextId u) := by
    intro lc hlc u hu
    have hlc2 : (lc.1, lc.2) ∈ matchPairs (cost fk g0) (r1.current.map Prod.fst)
        g0.labels := by
      rw [Prod.mk.eta]
      exact hlc
    have hmp : matchedPrev (matchPairs (cost fk g0) (r1.current.map Prod.fst)
        g0.labels) lc.2 = some lc.1 :=
      matchedPrev_eq_of_mem hMbsnd hlc2
    have hfm : fmOf (matchPairs (cost fk g0) (r1.current.map Prod.fst) g0.labels)
        r1.current lc.2 = some u := by
      simp only [fmOf, hmp, Option.some_bind]
      exact hu
    have hcmem : lc.2 ∈ g0.labels := by
      have := @greedyMatch_mem (cost fk g0) lc.1 lc.2
        (List.insertionSort (fun a b => a ≤ b) (r1.current.map Prod.fst)) g0.labels
        (by rw [matchPairs] at hlc2; exact hlc2)
      exact this.2
    have hW1mem : (lc.2, u) ∈ (assignCur g0.labels
        (fmOf (matchPairs (cost fk g0) (r1.current.map Prod.fst) g0.labels)
          r1.current) r1.nextId).1 :=
      assignCur_mem_of_fm _ _ _ _ _ hcmem hfm
    have hlw : lookupA lc.2 (stepRun cost r1 g0).current = some u := by
      rw [hW1eq]
      exact lookupA_eq_of_mem (by rw [(assignCur_spec _ _ _).1]; exact hg0nd) hW1mem
    rw [hL1eq, lookupA_map_snd, hlw]
    rfl
  -- the links resolve survivors and miss later ids
  have hlook : ∀ u, (∃ lc ∈ matchPairs (cost fk g0) (r1.current.map Prod.fst)
        g0.labels, lookupA lc.1 r1.current = some u) →
      lookupA (stitchRho (r1.current.map Prod.snd) r1.nextId u)
        (linksOf (matchPairs (cost fk g0) (r1.current.map Prod.fst) g0.labels)
          r1.current (stepRun cost sL g0).current) = some u := by
    rintro u ⟨lc, hlc, hlu⟩
    exact linksOf_lookup r1.current (stepRun cost sL g0).current _ hρinj hc _
      hMbfst hcomp lc hlc u hlu
  have hnolook : ∀ w, r1.nextId ≤ w →
      lookupA (stitchRho (r1.current.map Prod.snd) r1.nextId w)
        (linksOf (matchPairs (cost fk g0) (r1.current.map Prod.fst) g0.labels)
          r1.current (stepRun cost sL g0).current) = none := by
    intro w hw
    apply lookupA_eq_none
    intro hmem
    obtain ⟨kv, hkv, hfst⟩ := List.mem_map.mp hmem
    obtain ⟨lc, hlc, h1, h2⟩ := linksOf_mem _ _ _ kv hkv
    have h3 := hcomp lc hlc kv.2 h1
    rw [h2] at h3
    have hk1 : kv.1 = stitchRho (r1.current.map Prod.snd) r1.nextId kv.2 :=
      Option.some.inj h3
    have hkv2 : kv.2 ∈ r1.current.map Prod.snd :=
      List.mem_map.mpr ⟨(lc.1, kv.2), lookupA_mem h1, rfl⟩
    have h4 := hρlow kv.2 hkv2
    have h5 := hρhigh w hw
    rw [hk1] at hfst
    omega
  -- goodness of whole-run uids after the boundary
  have hW1good : ∀ u ∈ (stepRun cost r1 g0).current.map Prod.snd,
      r1.nextId ≤ u ∨ u ∈ (matchPairs (cost fk g0) (r1.current.map Prod.fst)
        g0.labels).filterMap (fun lc => lookupA lc.1 r1.current) := by
    intro u hu
    rw [hW1eq] at hu
    obtain ⟨⟨c, u'⟩, hm, he⟩ := List.mem_map.mp hu
    simp only at he
    rw [he] at hm
    rcases (assignCur_spec _ _ _).2.2.2 c u hm with hfm | ⟨_, hge, _⟩
    · simp only [fmOf, Option.bind_eq_some] at hfm
      obtain ⟨l, hmp, hl⟩ := hfm
      refine Or.inr (List.mem_filterMap.mpr ⟨(l, c), matchedPrev_mem hmp, hl⟩)
    · exact Or.inl hge
  have hn1 : r1.nextId ≤ (stepRun cost r1 g0).nextId := by
    rw [stepRun_nextId, buildRecord_counter]
    exact (assignCur_spec _ _ _).2.1
  have hgood : ∀ e ∈ tlFrom cost r1 (g0 :: rest), ∀ u ∈ e.map Prod.snd,
      r1.nextId ≤ u ∨ u ∈ (matchPairs (cost fk g0) (r1.current.map Prod.fst)
        g0.labels).filterMap (fun lc => lookupA lc.1 r1.current) := by
    intro e he
    rcases List.mem_cons.mp he with rfl | he
    · exact hW1good
    · exact tlFrom_uid_closed _ r1.nextId (fun u h => Or.inl h) rest
        (stepRun cost r1 g0) hW1good hn1 e he
  -- behaviour of the stitch renaming on good uids
  have hren : ∀ u, (r1.nextId ≤ u ∨ u ∈ (matchPairs (cost fk g0)
        (r1.current.map Prod.fst) g0.labels).filterMap
        (fun lc => lookupA lc.1 r1.current)) →
      (match lookupA (stitchRho (r1.current.map Prod.snd) r1.nextId u)
          (linksOf (matchPairs (cost fk g0) (r1.current.map Prod.fst) g0.labels)
            r1.current (stepRun cost sL g0).current) with
        | some v => v
        | none => stitchRho (r1.current.map Prod.snd) r1.nextId u + (r1.nextId - 1)) =
      stitchSigma r1.nextId r1.current.length u := by
    intro u hu
    rcases hu with hu | hu
    · rw [hnolook u hu]
      have hred : (match (none : Option Nat) with
          | some v => v
          | none => stitchRho (r1.current.map Prod.snd) r1.nextId u + (r1.nextId - 1)) =
          stitchRho (r1.current.map Prod.snd) r1.nextId u + (r1.nextId - 1) := rfl
      rw [hred, hρhigh u hu, stitchSigma, if_neg (by omega)]
      omega
    · obtain ⟨lc, hlc, hlu⟩ := List.mem_filterMap.mp hu
      rw [hlook u ⟨lc, hlc, hlu⟩]
      have hred : (match (some u : Option Nat) with
          | some v => v
          | none => stitchRho (r1.current.map Prod.snd) r1.nextId u + (r1.nextId - 1)) =
          u := rfl
      rw [hred]
      have humem : u ∈ r1.current.map Prod.snd :=
        List.mem_map_of_mem Prod.snd (show (lc.1, u) ∈ r1.current from lookupA_mem hlu)
      rw [stitchSigma, if_pos (hd u humem)]
  -- assemble
  rw [List.map_append]
  have hpart1 : r1.timeline = r1.timeline.map (List.map fun lu =>
      (lu.1, stitchSigma r1.nextId r1.current.length lu.2)) := by
    symm
    have hmapid : ∀ a ∈ r1.timeline, a.map (fun lu =>
        (lu.1, stitchSigma r1.nextId r1.current.length lu.2)) = a := by
      intro a haa
      have hent : ∀ lu ∈ a, (lu.1, stitchSigma r1.nextId r1.current.length lu.2) = lu := by
        intro lu hlu
        have hlt := ht a haa lu.2 (List.mem_map_of_mem Prod.snd hlu)
        rw [stitchSigma, if_pos hlt]
      calc a.map (fun lu => (lu.1, stitchSigma r1.nextId r1.current.length lu.2))
          = a.map id := List.map_congr_left (fun lu hlu => hent lu hlu)
        _ = a := List.map_id a
    calc r1.timeline.map (List.map fun lu =>
          (lu.1, stitchSigma r1.nextId r1.current.length lu.2))
        = r1.timeline.map id := List.map_congr_left (fun a haa => hmapid a haa)
      _ = r1.timeline := List.map_id _
  obtain ⟨htl, _⟩ := @tlFrom_sim cost (stitchRho (r1.current.map Prod.snd) r1.nextId)
    (g0 :: rest) r1 sL hsim
  have hpart2 : (tlFrom cost sL (g0 :: rest)).map (List.map fun lu =>
      (lu.1, match lookupA lu.2 (stitchBoundary cost fk g0 r1.current
          ((stepRun cost sL g0).current)) with
        | some u => u
        | none => lu.2 + (r1.nextId - 1))) =
      (tlFrom cost r1 (g0 :: rest)).map (List.map fun lu =>
        (lu.1, stitchSigma r1.nextId r1.current.length lu.2)) := by
    rw [htl, List.map_map]
    apply List.map_congr_left
    intro e he
    simp only [Function.comp_apply, List.map_map]
    apply List.map_congr_left
    intro lu hlu
    simp only [Function.comp_apply, stitchBoundary]
    have hg := hgood e he lu.2 (List.mem_map_of_mem Prod.snd hlu)
    rw [hren lu.2 hg]
  rw [← hpart1, hpart2]

/-- **C6.**  For every time range and every two-way split of that range
into overlapping intervals, running the tracking pipeline on the whole
range and running it per interval and then stitching (boundary re-matching
plus offsetting the remaining interval-2 ids by interval 1's running id
total) produce the same per-frame universal-id timeline up to a strictly
monotone (hence injective) renaming of universal ids: the lineage-graph
topology and all per-frame label data coincide. -/
theorem parallel_stitch_equivalent_to_single_run
    (cost : Frame → Frame → Nat → Nat → Option ℚ) (frames : List Frame) (k : Nat)
    (hk : k + 1 < frames.length)
    (hnd : ∀ f ∈ frames, f.labels.Nodup) :
    ∃ σ : Nat → Nat, StrictMono σ ∧
      stitchTwo cost frames k =
        (runAll cost frames).timeline.map (List.map fun lu => (lu.1, σ lu.2)) := by
  have hk0 : k < frames.length := by omega
  set fk := frames.get ⟨k, hk0⟩ with hfkdef
  set g0 := frames.get ⟨k + 1, hk⟩ with hg0def
  have hdropk : frames.drop k = fk :: frames.drop (k + 1) := List.drop_eq_get_cons hk0
  have hdropk1 : frames.drop (k + 1) = g0 :: frames.drop (k + 2) :=
    List.drop_eq_get_cons hk
  have htake : frames.take (k + 1) = frames.take k ++ [fk] := by
    rw [List.take_succ, List.getElem?_eq_getElem hk0]
    rfl
  have hr1s : runAll cost (frames.take (k + 1)) =
      stepRun cost (runAll cost (frames.take k)) fk := by
    rw [htake, runAll, runFrames, List.foldl_append]
    rfl
  have hinv1 : InvR (runAll cost (frames.take (k + 1))) :=
    (@runFrames_invR cost (frames.take (k + 1)) initState initState_invR
      (fun f hf => hnd f (List.take_subset _ _ hf))).1
  have hpf1 : (runAll cost (frames.take (k + 1))).prevFrame = some fk := by
    rw [hr1s, stepRun_prevFrame]
  have hks : (runAll cost (frames.take (k + 1))).current.map Prod.fst = fk.labels := by
    have := hinv1.1
    rw [hpf1] at this
    exact this
  have hfm0 : ∀ (M : List (Nat × Nat)) (c : Nat),
      fmOf M initState.current c = none := by
    intro M c
    simp only [fmOf]
    cases matchedPrev M c <;> rfl
  have hcurL : (stepRun cost initState fk).current =
      (runAll cost (frames.take (k + 1))).current.map (fun lu =>
        (lu.1, stitchRho ((runAll cost (frames.take (k + 1))).current.map Prod.snd)
          (runAll cost (frames.take (k + 1))).nextId lu.2)) := by
    rw [stepRun_current, buildRecord_uidOf]
    rw [show fk.labels =
      (runAll cost (frames.take (k + 1))).current.map Prod.fst from hks.symm]
    refine assignCur_none_zip _ (hfm0 _) _ 1 _ ?_
    intro i
    have hmem : ((runAll cost (frames.take (k + 1))).current.get i).2 ∈
        (runAll cost (frames.take (k + 1))).current.map Prod.snd :=
      List.mem_map.mpr ⟨_, List.get_mem _ _ _, rfl⟩
    have hlt := hinv1.2.2.2.1 _ hmem
    rw [stitchRho, if_pos hlt]
    have h2 : i.1 < ((runAll cost (frames.take (k + 1))).current.map
        Prod.snd).length := by
      rw [List.length_map]
      exact i.2
    have h3 : ((runAll cost (frames.take (k + 1))).current.map Prod.snd)[i.1] =
        ((runAll cost (frames.take (k + 1))).current.get i).2 := by
      rw [List.getElem_map]
      rfl
    have hidx := List.indexOf_getElem hinv1.2.2.1 i.1 h2
    rw [h3] at hidx
    rw [hidx]
    omega
  have hnL : (stepRun cost initState fk).nextId =
      1 + (runAll cost (frames.take (k + 1))).current.length := by
    rw [stepRun_nextId, buildRecord_counter, assignCur_none_counter _ (hfm0 _)]
    have hlen : fk.labels.length =
        (runAll cost (frames.take (k + 1))).current.length := by
      rw [← hks, List.length_map]
    simp only [initState]
    omega
  have hfr0 : ∀ j, stitchRho ((runAll cost (frames.take (k + 1))).current.map Prod.snd)
      (runAll cost (frames.take (k + 1))).nextId
      ((runAll cost (frames.take (k + 1))).nextId + j) =
      (stepRun cost initState fk).nextId + j := by
    intro j
    rw [stitchRho, if_neg (by omega), hnL, List.length_map]
    omega
  have hpfL : (stepRun cost initState fk).prevFrame =
      (runAll cost (frames.take (k + 1))).prevFrame := by
    rw [stepRun_prevFrame, hpf1]
  have hsim0 : SimRel
      (stitchRho ((runAll cost (frames.take (k + 1))).current.map Prod.snd)
        (runAll cost (frames.take (k + 1))).nextId)
      (runAll cost (frames.take (k + 1))) (stepRun cost initState fk) :=
    ⟨hpfL, hcurL, hfr0⟩
  have hg0nd : g0.labels.Nodup := by
    refine hnd g0 ?_
    rw [hg0def]
    exact List.get_mem _ _ _
  have hcore := stitch_core cost (runAll cost (frames.take (k + 1)))
    (stepRun cost initState fk) fk g0 (frames.drop (k + 2)) hinv1 hpf1 hg0nd hsim0
  have hfkD : (frames.drop k).headD ⟨[]⟩ = fk := by
    rw [hdropk]
    rfl
  have hfk1D : ((frames.drop k).drop 1).headD ⟨[]⟩ = g0 := by
    rw [hdropk]
    show (frames.drop (k + 1)).headD ⟨[]⟩ = g0
    rw [hdropk1]
    rfl
  have htail2 : (runAll cost (frames.drop k)).timeline.drop 1 =
      tlFrom cost (stepRun cost initState fk) (frames.drop (k + 1)) := by
    rw [hdropk]
    show (runFrames cost (stepRun cost initState fk) (frames.drop (k + 1))).timeline.drop 1
      = _
    rw [runFrames_timeline]
    rfl
  have ha2D : (tlFrom cost (stepRun cost initState fk) (frames.drop (k + 1))).headD []
      = (stepRun cost (stepRun cost initState fk) g0).current := by
    rw [hdropk1]
    rfl
  have hWtl : (runAll cost frames).timeline =
      (runAll cost (frames.take (k + 1))).timeline ++
      tlFrom cost (runAll cost (frames.take (k + 1))) (frames.drop (k + 1)) := by
    conv_lhs => rw [← List.take_append_drop (k + 1) frames]
    rw [runAll, runFrames, List.foldl_append]
    exact runFrames_timeline cost _ _
  refine ⟨stitchSigma (runAll cost (frames.take (k + 1))).nextId
    (runAll cost (frames.take (k + 1))).current.length, stitchSigma_strictMono _ _, ?_⟩
  calc stitchTwo cost frames k
      = (runAll cost (frames.take (k + 1))).timeline ++
        (tlFrom cost (stepRun cost initState fk) (frames.drop (k + 1))).map
          (List.map fun lu =>
            (lu.1, match lookupA lu.2 (stitchBoundary cost fk g0
                (runAll cost (frames.take (k + 1))).current
                ((stepRun cost (stepRun cost initState fk) g0).current)) with
              | some u => u
              | none => lu.2 + ((runAll cost (frames.take (k + 1))).nextId - 1))) := by
        simp only [stitchTwo]
        rw [hfkD, hfk1D, htail2, ha2D]
    _ = ((runAll cost (frames.take (k + 1))).timeline ++
        tlFrom cost (runAll cost (frames.take (k + 1))) (frames.drop (k + 1))).map
          (List.map fun lu =>
            (lu.1, stitchSigma (runAll cost (frames.take (k + 1))).nextId
              (runAll cost (frames.take (k + 1))).current.length lu.2)) := by
        rw [hdropk1]
        exact hcore
    _ = (runAll cost frames).timeline.map (List.map fun lu =>
          (lu.1, stitchSigma (runAll cost (frames.take (k + 1))).nextId
            (runAll cost (frames.take (k + 1))).current.length lu.2)) := by
        rw [hWtl]

/-- Witness for C6 at a concrete three-frame range split after frame 1. -/
theorem parallel_stitch_equivalent_to_single_run_witness :
    ∃ σ : Nat → Nat, StrictMono σ ∧
      stitchTwo (fun _ _ => exCost) [⟨[1, 2]⟩, ⟨[5, 6]⟩, ⟨[7]⟩] 1 =
        (runAll (fun _ _ => exCost) [⟨[1, 2]⟩, ⟨[5, 6]⟩, ⟨[7]⟩]).timeline.map
          (List.map fun lu => (lu.1, σ lu.2)) :=
  parallel_stitch_equivalent_to_single_run (fun _ _ => exCost)
    [⟨[1, 2]⟩, ⟨[5, 6]⟩, ⟨[7]⟩] 1 (by decide) (by decide)

end Thuner
